import Mathlib

/-!
# Verification of the Saino-COC batch conversion engine (src/main.py)

A shallow embedding, in Lean 4, of the parts of `src/main.py` that the
checked claims are about:

* `natural_sort_key` (line 149-150) and the sort modes built on it;
* the DPI selection of `ImageToPDF.convert_dialog` (line 813-814) and the
  `page.get_pixmap(dpi=self.dpi)` call of
  `BatchConvertThread._gather_images_for_item` (line 464);
* the archive-extraction backend chain (lines 249-262 and 469-483);
* `ContentsEditor.move_up` / `ContentsEditor.move_down` (lines 303-330);
* the worker `BatchConvertThread` (lines 355-577): `run`, `_make_cbz`,
  `_make_pdf_from_images_with_progress`, `_cleanup`.

Machine state that the worker mutates (the cancellation flag, the list of
registered temp directories, the files on disk, emitted messages) is made
explicit in a `WState` record threaded through the definitions.  The
cooperative cancellation flag is modelled by a cancellation time
`cancelAt : Nat`: the worker's reads of `self._cancel` are numbered by a
`tick` counter, and a read at tick `t` returns `true` iff `cancelAt ≤ t`
(the flag is set once by the caller and then stays set, hence monotone).

Filesystem effects are modelled at the granularity the code manipulates
them: an output file is a path plus a completeness bit plus its ordered
entries (zip members resp. PDF pages).  `_gather_images_for_item` is kept
abstract over its source-resolution part (its filesystem scanning cannot be
embedded), but its observable effects on the worker state are modelled
exactly: it registers the temp directories it creates in `_temp_dirs` and
contributes an ordered list of page paths.
-/

/-! ## Natural sort key (src/main.py lines 149-150)

`def natural_sort_key(s): return [int(x) if x.isdigit() else x.lower()
for x in re.split(r'(\d+)', s)]`

`re.split(r'(\d+)', s)` cuts `s` into maximal digit runs and the
digit-free text between them, returning
`[t0, d1, t1, ..., dk, tk]` where the `di` are the captured (nonempty)
digit runs and the `ti` (possibly empty) contain no digits.  `splitRuns`
below computes that list structurally, one character at a time. -/

def splitRuns : List Char → List (List Char)
  | [] => [[]]
  | c :: cs =>
    match splitRuns cs with
    | [] => [[]]
    | t0 :: rest =>
      if c.isDigit then
        if t0.isEmpty then
          match rest with
          | d :: rest2 => [] :: (c :: d) :: rest2
          | [] => [[], [c], []]
        else [] :: [c] :: t0 :: rest
      else (c :: t0) :: rest

/-- Python `str.isdigit` on one run: nonempty and all digits. -/
def pyIsdigit (cs : List Char) : Bool := !cs.isEmpty && cs.all Char.isDigit

/-- Python `int(x)` on a digit run. -/
def digitsToNat (cs : List Char) : Nat :=
  cs.foldl (fun n c => n * 10 + (c.toNat - 48)) 0

/-- Python `str.lower` (ASCII model, as in the filenames at hand). -/
def lowerRun (cs : List Char) : List Char := cs.map Char.toLower

/-- One element of the key list: a lowered string or a parsed integer. -/
inductive KeyElem where
  | str : List Char → KeyElem
  | num : Nat → KeyElem
deriving DecidableEq

/-- `int(x) if x.isdigit() else x.lower()` applied to one run. -/
def keyOfRun (r : List Char) : KeyElem :=
  if pyIsdigit r then .num (digitsToNat r) else .str (lowerRun r)

/-- `natural_sort_key` from src/main.py line 149-150. -/
def natural_sort_key (s : String) : List KeyElem :=
  (splitRuns s.toList).map keyOfRun

/-- Python string `<` (lexicographic by code point). -/
def strLtB : List Char → List Char → Bool
  | [], [] => false
  | [], _ :: _ => true
  | _ :: _, [] => false
  | a :: as, b :: bs => if a < b then true else if b < a then false else strLtB as bs

/-- Python `<` between two key elements.  Python raises `TypeError` on a
mixed `int`/`str` comparison; those cases never arise between two
`natural_sort_key` values (the shape theorem for C10), and are given an
arbitrary fixed value here. -/
def keyElemLt : KeyElem → KeyElem → Bool
  | .str a, .str b => strLtB a b
  | .num a, .num b => decide (a < b)
  | .str _, .num _ => true
  | .num _, .str _ => false

/-- Python list `<` on key lists: elementwise `==` then `<`, a shorter
list that is a prefix of the other being smaller. -/
def keyListLt : List KeyElem → List KeyElem → Bool
  | [], [] => false
  | [], _ :: _ => true
  | _ :: _, [] => false
  | a :: as, b :: bs => if a = b then keyListLt as bs else keyElemLt a b

/-- `natural_sort_key s < natural_sort_key t` — the comparison Python's
`sorted(key=natural_sort_key)` performs. -/
def natKeyLt (s t : String) : Bool :=
  keyListLt (natural_sort_key s) (natural_sort_key t)

/-- The matching non-strict comparison used to run a stable sort. -/
def natKeyLe (s t : String) : Bool := !natKeyLt t s

/-- `sorted(names, key=natural_sort_key)`: Python's sort is a stable
comparison sort; it is modelled by a stable insertion sort under the
non-strict key comparison. -/
def natural_sorted (l : List String) : List String :=
  List.insertionSort (fun a b => natKeyLe a b = true) l

/-! The specification's own wording of natural order ("split the name into
alternating non-digit/digit runs; compare digit runs as integers,
non-digit runs case-insensitively as strings"), written independently of
the code's key representation, for the refinement claim C5. -/

/-- Case-insensitive string `<` (spec wording). -/
def ciStrLt (a b : List Char) : Bool :=
  strLtB (a.map Char.toLower) (b.map Char.toLower)

/-- Case-insensitive string equality (spec wording). -/
def ciStrEq (a b : List Char) : Bool :=
  a.map Char.toLower == b.map Char.toLower

/-- Spec comparison of one pair of runs: digit runs as integers, other
runs case-insensitively as strings. -/
def specRunLt (a b : List Char) : Bool :=
  if pyIsdigit a && pyIsdigit b then decide (digitsToNat a < digitsToNat b)
  else ciStrLt a b

/-- Spec equality of one pair of runs. -/
def specRunEq (a b : List Char) : Bool :=
  if pyIsdigit a && pyIsdigit b then digitsToNat a == digitsToNat b
  else ciStrEq a b

/-- Spec comparison of two run lists, position by position. -/
def specRunsLt : List (List Char) → List (List Char) → Bool
  | [], [] => false
  | [], _ :: _ => true
  | _ :: _, [] => false
  | a :: as, b :: bs => if specRunEq a b then specRunsLt as bs else specRunLt a b

/-- Natural order as the spec defines it, directly on the two names. -/
def specNaturalLt (s t : String) : Bool :=
  specRunsLt (splitRuns s.toList) (splitRuns t.toList)

/-- `true` on a string key element, `false` on an integer one. -/
def keyElemIsStr : KeyElem → Bool
  | .str _ => true
  | .num _ => false

/-! ## DPI policy (src/main.py lines 813-814 and 455-468)

`ImageToPDF.convert_dialog` line 814:
`dpi = self.dpi_spin.value() if self.dpi_cb.isChecked() else
CONFIG.get("dpi_value", 300)` — the thread's `self.dpi`.

`BatchConvertThread._gather_images_for_item` line 464 renders every PDF
page with `pix = page.get_pixmap(dpi=self.dpi)`: the `dpi` keyword is
always supplied.  `none` below would mean "no dpi argument given to the
renderer" (renderer default); the code never produces it. -/

/-- Line 814: the DPI value handed to the worker thread. -/
def dialog_dpi (dpi_cb_checked : Bool) (dpi_spin_value config_dpi_value : Nat) : Nat :=
  if dpi_cb_checked then dpi_spin_value else config_dpi_value

/-- Line 464: the `dpi` argument the engine passes to
`page.get_pixmap`; `none` would be "not passed". -/
def get_pixmap_dpi_arg (thread_dpi : Nat) : Option Nat := some thread_dpi

/-! ## Archive extraction backend chain (src/main.py 249-262, 469-483)

Both call sites run the same chain:
```
success=False
if HAS_PATOOL:
    try: patoolib.extract_archive(...); success=True
    except Exception: success=False
if not success:
    if run_7z_extract(...): success=True
if not success:
    try: shutil.unpack_archive(...); success=True
    except Exception: success=False
```
-/

inductive ExtractBackend where
  /-- `patoolib.extract_archive` — the general-purpose multi-format
  archive library. -/
  | patool
  /-- `run_7z_extract` — the specialized external `7z` tool. -/
  | sevenZ
  /-- `shutil.unpack_archive` — the minimal built-in unpack routine. -/
  | builtinUnpack
deriving DecidableEq

/-- The backend chain exactly as the code runs it (`hasPatool` is
`HAS_PATOOL`, `ok b` is whether backend `b` would succeed on this
archive); returns the backend that succeeded first, if any. -/
def extract_chain (hasPatool : Bool) (ok : ExtractBackend → Bool) : Option ExtractBackend :=
  if hasPatool && ok .patool then some .patool
  else if ok .sevenZ then some .sevenZ
  else if ok .builtinUnpack then some .builtinUnpack
  else none

/-- First-success iteration over an ordered list of backends (the spec's
"tried in order until one succeeds"). -/
def firstSuccess (ok : ExtractBackend → Bool) : List ExtractBackend → Option ExtractBackend
  | [] => none
  | b :: rest => if ok b then some b else firstSuccess ok rest

/-- The order the claim asserts: external tool, then library, then
built-in. -/
def claimedOrder : List ExtractBackend := [.sevenZ, .patool, .builtinUnpack]

/-- The order the code actually uses. -/
def codeOrder : List ExtractBackend := [.patool, .sevenZ, .builtinUnpack]

/-- Availability folded into the success predicate: `patool` can only
succeed when the library imported. -/
def chainOk (hasPatool : Bool) (ok : ExtractBackend → Bool) : ExtractBackend → Bool :=
  fun b => if b = .patool then hasPatool && ok b else ok b

/-! ## ContentsEditor block moves (src/main.py lines 303-330)

`move_up`:
```
sel = sorted({...})          # ascending distinct selected rows
i = sel[0]
if i>0:
    block = [self.files[j] for j in sel]
    for j in sel:            # ascending deletes
        del self.files[j]
    insert_at = sel[0]-1
    for k, item in enumerate(block):
        self.files.insert(insert_at+k, item)
```
`move_down` is the same with `for j in reversed(sel)` deletes and
`insert_at = sel[-1]+1 - len(block) + 1`. -/

/-- Python `del l[i]`. -/
def py_delete {α : Type} (l : List α) (i : Nat) : List α :=
  l.take i ++ l.drop (i + 1)

/-- Python `l.insert(i, x)` (index clamped to the length, as in Python). -/
def py_insert {α : Type} (l : List α) (i : Nat) (x : α) : List α :=
  l.take i ++ [x] ++ l.drop i

/-- `for k, item in enumerate(block): l.insert(at+k, item)`. -/
def insertBlock {α : Type} (l : List α) (at_ : Nat) : List α → List α
  | [] => l
  | x :: xs => insertBlock (py_insert l at_ x) (at_ + 1) xs

/-- `ContentsEditor.move_up` on `files` with sorted distinct selected
rows `sel`.  Note the code deletes the selected indices in ascending
order. -/
def ce_move_up {α : Type} (files : List α) (sel : List Nat) : List α :=
  match sel with
  | [] => files
  | i :: _ =>
    if i > 0 then
      let block := sel.filterMap (fun j => files.get? j)
      let files1 := sel.foldl py_delete files
      insertBlock files1 (i - 1) block
    else files

/-- `ContentsEditor.move_down` on `files` with sorted distinct selected
rows `sel`; deletes run in reversed order here. -/
def ce_move_down {α : Type} (files : List α) (sel : List Nat) : List α :=
  match sel.getLast? with
  | none => files
  | some i =>
    if i < files.length - 1 then
      let block := sel.filterMap (fun j => files.get? j)
      let files1 := sel.reverse.foldl py_delete files
      insertBlock files1 (i + 1 - block.length + 1) block
    else files

/-! ## Worker thread model (src/main.py lines 355-577)

`BatchConvertThread` state made explicit.  `tick` numbers the reads of
the cancellation flag `self._cancel`; a read at tick `t` returns `true`
iff `cancelAt ≤ t`, where `cancelAt` is the (monotone) time at which the
caller's `cancel()` set the flag — `cancelAt` larger than every tick of
the run models a run that is never cancelled. -/

/-- One output file on disk: its path, whether its writer finished it,
and its ordered entries (zip members for a CBZ, pages for a PDF). -/
structure OutFile where
  path : String
  complete : Bool
  entries : List String
deriving DecidableEq

/-- The worker-visible machine state. `tempReg` is `self._temp_dirs`
(the registered temp directories); `tempLive` the temp directories
currently existing on disk; `disk` the output files on disk; `msgs` the
`self.message.emit` log. -/
structure WState where
  tick : Nat
  tempReg : List String
  tempLive : List String
  disk : List OutFile
  msgs : List String
deriving DecidableEq

/-- Fresh state at worker start. -/
def WState.start : WState := ⟨0, [], [], [], []⟩

/-- One read of `self._cancel`. -/
def readCancel (cancelAt : Nat) (st : WState) : Bool × WState :=
  (decide (cancelAt ≤ st.tick), { st with tick := st.tick + 1 })

/-- `os.remove(p)` (and the net effect of deleting a partly written
file). -/
def diskRemove (disk : List OutFile) (p : String) : List OutFile :=
  disk.filter (fun f => f.path ≠ p)

/-- `open(p, "wb")` / zip creation: truncate any existing file at `p`
and put `f` there. -/
def diskUpsert (disk : List OutFile) (f : OutFile) : List OutFile :=
  diskRemove disk f.path ++ [f]

/-- Static configuration of one `BatchConvertThread` run, plus the
environment facts the run depends on.  `writable p` is whether
`z.write(p, arc)` succeeds on page `p`; `readable p` whether
`Image.open(p)` (and img2pdf's decoding of `p`) succeeds; `mergeOk`
whether `PdfMerger` accepts the per-source outputs. -/
structure Config where
  outDir : String
  merge : Bool
  fmtCBZ : Bool
  hasImg2pdf : Bool
  hasPypdf : Bool
  mergeOk : Bool
  writable : String → Bool
  readable : String → Bool

/-- `remove_numbers_from_name` (src/main.py line 158-159):
`re.sub(r'\d+','',s).strip().strip('_- ')`. -/
def stripEnds (cs : List Char) (set : List Char) : List Char :=
  ((cs.dropWhile (fun c => c ∈ set)).reverse.dropWhile (fun c => c ∈ set)).reverse

def remove_numbers_from_name (s : String) : String :=
  let cs := s.toList.filter (fun c => !c.isDigit)
  let cs := stripEnds cs [' ', '\t', '\n', '\r']
  let cs := stripEnds cs ['_', '-', ' ']
  String.mk cs

/-- `os.path.splitext(p)[1]`: the extension of the basename of `p`,
empty when the basename has no dot or only leading dots before its last
dot. -/
def extOf (p : String) : List Char :=
  let b := (p.toList.reverse.takeWhile (fun c => c ≠ '/')).reverse
  let afterRev := b.reverse.takeWhile (fun c => c ≠ '.')
  if afterRev.length = b.length then []
  else
    let i := b.length - afterRev.length - 1
    if (b.take i).all (fun c => c = '.') then [] else b.drop i

/-- `f"{i:04}"`: decimal, zero-padded on the left to width at least 4. -/
def pad4 (n : Nat) : String :=
  let s := toString n
  String.mk (List.replicate (4 - s.length) '0') ++ s

/-- The archive entry name of input page `p` at 1-based position `i`:
`arc = f"{i:04}{os.path.splitext(p)[1].lower()}"` (line 504). -/
def cbzEntryName (i : Nat) (p : String) : String :=
  pad4 i ++ String.mk ((extOf p).map Char.toLower)

/-- `enumerate(images, start=i)`. -/
def enumFrom (i : Nat) : List String → List (Nat × String)
  | [] => []
  | p :: rest => (i, p) :: enumFrom (i + 1) rest

/-- The entry loop of `_make_cbz` (lines 496-506): before each entry one
flag read; on cancel the loop aborts with `none`; a failing
`z.write(p, arc)` is swallowed and the entry simply omitted. Returns the
accumulated entry names. -/
def cbzLoop (cfg : Config) (cancelAt : Nat) :
    List (Nat × String) → List String → WState → Option (List String) × WState
  | [], acc, st => (some acc, st)
  | (i, p) :: rest, acc, st =>
    let r := readCancel cancelAt st
    if r.1 then (none, r.2)
    else cbzLoop cfg cancelAt rest
      (acc ++ if cfg.writable p then [cbzEntryName i p] else []) r.2

/-- `_make_cbz` (src/main.py lines 491-509).  Opening the
`zipfile.ZipFile(out_path, 'w')` creates the file; on a cancellation
inside the loop the partly written archive is closed and removed and the
call returns `None`; otherwise the `with` block finalizes the archive. -/
def make_cbz (cfg : Config) (cancelAt : Nat) (images : List String)
    (out_dir base_name : String) (st : WState) : Option String × WState :=
  let out_path := out_dir ++ "/" ++ base_name ++ ".cbz"
  let st1 : WState := { st with disk := diskUpsert st.disk ⟨out_path, false, []⟩ }
  match cbzLoop cfg cancelAt (enumFrom 1 images) [] st1 with
  | (none, st2) => (none, { st2 with disk := diskRemove st2.disk out_path })
  | (some es, st2) =>
    (some out_path, { st2 with disk := diskUpsert st2.disk ⟨out_path, true, es⟩ })

/-- The per-page `detailed.emit` loop after a successful img2pdf write
(lines 525-527): one flag read per page, stopping early when the flag is
set. -/
def emitLoop (cancelAt : Nat) : Nat → WState → WState
  | 0, st => st
  | n + 1, st =>
    let r := readCancel cancelAt st
    if r.1 then r.2 else emitLoop cancelAt n r.2

/-- The PIL fallback loop over `images[1:]` (lines 540-554): one flag
read per page; an unreadable page raises inside the inner `try` and is
skipped by `continue`; on cancel the call returns `None` (all open
handles closed). Returns the successfully opened pages. -/
def pilLoop (cfg : Config) (cancelAt : Nat) :
    List String → List String → WState → Option (List String) × WState
  | [], acc, st => (some acc, st)
  | p :: rest, acc, st =>
    let r := readCancel cancelAt st
    if r.1 then (none, r.2)
    else pilLoop cfg cancelAt rest
      (acc ++ if cfg.readable p then [p] else []) r.2

/-- The PIL fallback of `_make_pdf_from_images_with_progress`
(lines 536-568).  `Image.open(images[0])` is outside any inner `try`:
an unreadable first page raises to the outer handler, which logs
"PDF error" and returns `None`.  On success `first.save(..)` writes the
whole document at once. -/
def make_pdf_pil (cfg : Config) (cancelAt : Nat) (images : List String)
    (out_path : String) (st : WState) : Option String × WState :=
  match images with
  | [] => (none, st)
  | p0 :: rest =>
    if cfg.readable p0 then
      match pilLoop cfg cancelAt rest [] st with
      | (none, st2) => (none, st2)
      | (some others, st2) =>
        let r := readCancel cancelAt st2
        if r.1 then (none, r.2)
        else (some out_path,
          { r.2 with disk := diskUpsert r.2.disk ⟨out_path, true, p0 :: others⟩ })
    else (none, { st with msgs := st.msgs ++ ["PDF error"] })

/-- `_make_pdf_from_images_with_progress` (src/main.py lines 511-571).
With img2pdf available, `with open(out_path,"wb") as f:
f.write(img2pdf.convert(...))` first creates/truncates `out_path`, then
runs the atomic conversion: if every page decodes the whole document is
written; if any page is undecodable `convert` raises, the opened file is
left behind empty, and the code falls back to PIL. -/
def make_pdf (cfg : Config) (cancelAt : Nat) (images : List String)
    (out_dir base_name : String) (st : WState) : Option String × WState :=
  if images.isEmpty then (none, st)
  else
    let out_path := out_dir ++ "/" ++ base_name ++ ".pdf"
    let r := readCancel cancelAt st
    if r.1 then (none, r.2)
    else if cfg.hasImg2pdf then
      let r2 := readCancel cancelAt r.2
      if r2.1 then (none, r2.2)
      else
        let st1 : WState := { r2.2 with disk := diskUpsert r2.2.disk ⟨out_path, false, []⟩ }
        if images.all cfg.readable then
          let st2 : WState := { st1 with disk := diskUpsert st1.disk ⟨out_path, true, images⟩ }
          let st3 := emitLoop cancelAt images.length st2
          let r3 := readCancel cancelAt st3
          if r3.1 then (none, { r3.2 with disk := diskRemove r3.2.disk out_path })
          else (some out_path, r3.2)
        else
          make_pdf_pil cfg cancelAt images out_path
            { st1 with msgs := st1.msgs ++ ["img2pdf failed -> fallback PIL"] }
    else
      make_pdf_pil cfg cancelAt images out_path r.2

/-- One entry of a source's `content_override` (or the source path
itself): resolving it yields `pages` in order and creates the temp
directories `temps`, each of which `_gather_images_for_item` registers in
`self._temp_dirs` the moment it is created (lines 459, 470). -/
structure Item where
  pages : List String
  temps : List String
deriving DecidableEq

/-- One entry of `self.sources` as the worker sees it. -/
structure Source where
  label : String
  items : List Item
deriving DecidableEq

/-- The gather loop of `run` (lines 387-391): per item one flag read,
then `_gather_images_for_item` — abstracted to its observable effects:
register the item's temp directories (they also appear on disk) and
append its pages. -/
def gatherLoop (cancelAt : Nat) :
    List Item → List String → WState → List String × WState
  | [], acc, st => (acc, st)
  | it :: rest, acc, st =>
    let r := readCancel cancelAt st
    if r.1 then (acc, r.2)
    else gatherLoop cancelAt rest (acc ++ it.pages)
      { r.2 with tempReg := r.2.tempReg ++ it.temps,
                 tempLive := r.2.tempLive ++ it.temps }

/-- The per-source loop of `run` (lines 381-413), returning the
`outputs` list and the machine state when the loop ends (normally or by
a `break` after a positive flag read). -/
def runLoop (cfg : Config) (cancelAt : Nat) :
    List Source → Nat → List String → WState → List String × WState
  | [], _, outs, st => (outs, st)
  | src :: rest, si, outs, st =>
    let r := readCancel cancelAt st
    if r.1 then (outs, r.2)
    else
      let st1 : WState := { r.2 with msgs := r.2.msgs ++ ["processing " ++ src.label] }
      let g := gatherLoop cancelAt src.items [] st1
      if g.1.isEmpty then
        runLoop cfg cancelAt rest (si + 1) outs
          { g.2 with msgs := g.2.msgs ++ ["No pages in " ++ src.label] }
      else
        let base_name :=
          if remove_numbers_from_name src.label = "" then "source" ++ toString si
          else remove_numbers_from_name src.label
        let out_name := if cfg.merge then "merged" else base_name
        let r2 := readCancel cancelAt g.2
        if r2.1 then (outs, r2.2)
        else
          let mk := if cfg.fmtCBZ then make_cbz cfg cancelAt g.1 cfg.outDir out_name r2.2
                    else make_pdf cfg cancelAt g.1 cfg.outDir out_name r2.2
          let outs1 := outs ++ mk.1.toList
          let r3 := readCancel cancelAt mk.2
          if r3.1 then (outs1, r3.2)
          else runLoop cfg cancelAt rest (si + 1) outs1 r3.2

/-- `merger.append(p)` loop (lines 419-421): per output one flag read
(breaking out when set); `mergeOk = false` makes the append raise, which
the surrounding `except` turns into the "Merge failed" message.  Returns
whether the exception was raised. -/
def mergeAppendLoop (cfg : Config) (cancelAt : Nat) :
    List String → WState → Bool × WState
  | [], st => (false, st)
  | _ :: rest, st =>
    let r := readCancel cancelAt st
    if r.1 then (false, r.2)
    else if cfg.mergeOk then mergeAppendLoop cfg cancelAt rest r.2
    else (true, r.2)

/-- The merge step of `run` (lines 414-429).  The guard
`self.merge and self.out_format=='PDF' and outputs and not self._cancel
and HAS_PYPDF` reads the flag only after the first three conjuncts hold.
On success the outputs list is replaced by the single merged path. -/
def mergePhase (cfg : Config) (cancelAt : Nat) (outs : List String)
    (st : WState) : List String × WState :=
  if cfg.merge && !cfg.fmtCBZ && !outs.isEmpty then
    let r := readCancel cancelAt st
    if !r.1 && cfg.hasPypdf then
      let merged := cfg.outDir ++ "/merged.pdf"
      match mergeAppendLoop cfg cancelAt outs r.2 with
      | (true, st2) => (outs, { st2 with msgs := st2.msgs ++ ["Merge failed"] })
      | (false, st2) =>
        let r2 := readCancel cancelAt st2
        if !r2.1 then
          ([merged], { r2.2 with disk := diskUpsert r2.2.disk ⟨merged, true, []⟩,
                                 msgs := r2.2.msgs ++ ["Merged into merged.pdf"] })
        else (outs, r2.2)
    else (outs, r.2)
  else (outs, st)

/-- `_cleanup` (lines 573-577): remove every registered temp directory
from disk (best effort) and clear the registration list. -/
def cleanupPhase (st : WState) : WState :=
  { st with tempLive := st.tempLive.filter (fun d => !st.tempReg.contains d),
            tempReg := [] }

/-- Line 431: `self.finished_signal.emit(outputs if not self._cancel
else [])` — the final flag read decides between the outputs and the
empty list. -/
def emitFinal (cancelAt : Nat) (outs : List String) (st : WState) :
    List String × WState :=
  let r := readCancel cancelAt st
  (if r.1 then [] else outs, r.2)

/-- `BatchConvertThread.run` (src/main.py lines 375-435): the source
loop, the optional merge, `_cleanup`, and the final result emit, from a
fresh worker state. -/
def run (cfg : Config) (cancelAt : Nat) (sources : List Source) :
    List String × WState :=
  let l := runLoop cfg cancelAt sources 1 [] WState.start
  let m := mergePhase cfg cancelAt l.1 l.2
  emitFinal cancelAt m.1 (cleanupPhase m.2)

/-! ## Derived definitions used by the theorems -/

/-- The entry names `_make_cbz` produces for `images` when no
cancellation occurs: position `i` (1-based) contributes
`f"{i:04}{ext}"` exactly when `z.write` succeeds on it; a failing write
leaves a gap in the archive but not in the numbering. -/
def cbzEntries (w : String → Bool) (images : List String) : List String :=
  ((enumFrom 1 images).filter (fun ip => w ip.2)).map (fun ip => cbzEntryName ip.1 ip.2)

/-- No partly written output file: every file on disk was finished by
its writer. -/
def allComplete (disk : List OutFile) : Prop := ∀ f ∈ disk, f.complete = true

/-- Every live temp directory is registered in `self._temp_dirs` — the
worker's registration discipline (every `mkdtemp` is immediately
appended to `_temp_dirs`). -/
def tempsSub (st : WState) : Prop := ∀ d ∈ st.tempLive, d ∈ st.tempReg

/-- Readability of every page an item list can contribute. -/
def allPagesReadable (cfg : Config) (sources : List Source) : Prop :=
  ∀ src ∈ sources, ∀ it ∈ src.items, ∀ p ∈ it.pages, cfg.readable p = true

/-! Sample configurations used by concrete witnesses/counterexamples. -/

/-- A PDF job with img2pdf importable and page `"p2"` undecodable. -/
def cfgPdfBadPage : Config :=
  ⟨"/out", false, false, true, false, true, fun _ => true, fun p => p ≠ "p2"⟩

/-- A single source resolving to pages `p1, p2` and one temp dir. -/
def srcTwoPages : Source := ⟨"Src", [⟨["p1", "p2"], ["t1"]⟩]⟩

/-- A CBZ job where everything succeeds. -/
def cfgCbzOk : Config :=
  ⟨"/out", false, true, true, true, true, fun _ => true, fun _ => true⟩

/-- A single source resolving to one page. -/
def srcOnePage : Source := ⟨"S1", [⟨["q1"], []⟩]⟩

/-- A CBZ job where writing page `"w"` fails. -/
def cfgCbzBadWrite : Config :=
  ⟨"/out", false, true, false, false, true, fun p => p ≠ "w", fun _ => true⟩

/-- A merging PDF job whose `PdfMerger` step raises. -/
def cfgMergeFails : Config :=
  ⟨"/out", true, false, false, true, false, fun _ => true, fun _ => true⟩

/-- A PDF job with img2pdf importable and page `"bad"` undecodable. -/
def cfgPdfBad : Config :=
  ⟨"/o", false, false, true, true, true, fun _ => true, fun p => p ≠ "bad"⟩

/-! ## Claim C2 — DPI policy -/

/-- C2, counterexample.  The claim says that with `useCustomDpi = false`
the engine does not force any DPI on the renderer (the `dpi` argument of
`get_pixmap` would be absent, i.e. `none`).  In fact line 814 falls back
to the configured `dpi_value` (default 300) and line 464 always passes
`dpi=self.dpi`: with the checkbox unchecked and the default
configuration the renderer is called with `dpi=300`, not with its own
default. -/
theorem C2_counterexample :
    get_pixmap_dpi_arg (dialog_dpi false 300 300) = some 300
    ∧ get_pixmap_dpi_arg (dialog_dpi false 300 300) ≠ none := by
  constructor
  · rfl
  · intro h
    simp [get_pixmap_dpi_arg] at h

/-- C2, amended.  When the Custom-DPI checkbox is off, the engine still
injects a DPI into every `get_pixmap` call: the configured
`dpi_value` (300 by default), independent of the spinbox value; the
renderer's own default resolution is never used.  (Determinism across
runs still holds — the same configured value is passed each time.) -/
theorem C2_amended (spin spin2 config : Nat) :
    dialog_dpi false spin config = config
    ∧ get_pixmap_dpi_arg (dialog_dpi false spin config) = some config
    ∧ dialog_dpi false spin config = dialog_dpi false spin2 config := ⟨rfl, rfl, rfl⟩

/-! ## Claim C4 — extraction backend order -/

/-- C4, counterexample.  The claim orders the chain as: external tool
(7z) first, then the archive library (patoolib), then the built-in
routine.  The code (lines 470-481) tries `patoolib` first: with every
backend available and succeeding, the code's chain selects `patool`
while the claimed order would select `sevenZ`. -/
theorem C4_counterexample :
    extract_chain true (fun _ => true) = some ExtractBackend.patool
    ∧ firstSuccess (fun _ => true) claimedOrder = some ExtractBackend.sevenZ
    ∧ extract_chain true (fun _ => true) ≠ firstSuccess (fun _ => true) claimedOrder := by
  refine ⟨rfl, rfl, ?_⟩
  intro h
  simp [extract_chain, firstSuccess, claimedOrder] at h

/-- C4, amended.  Archive extraction is a first-success iteration over
the backends in the order: `patoolib` (the general-purpose library, only
when importable), then the external `7z` tool, then
`shutil.unpack_archive`; a failing backend falls through silently to the
next, and `none` (all failed) is what triggers the "cannot extract"
diagnostic. -/
theorem C4_amended (hasPatool : Bool) (ok : ExtractBackend → Bool) :
    extract_chain hasPatool ok = firstSuccess (chainOk hasPatool ok) codeOrder := by
  cases hasPatool <;>
    cases hp : ok .patool <;> cases hs : ok .sevenZ <;> cases hb : ok .builtinUnpack <;>
      simp [extract_chain, firstSuccess, codeOrder, chainOk, hp, hs, hb]

/-! ## Claim C9 — ContentsEditor block moves -/

/-- C9: the code evaluated at the failing input.  `move_up` deletes the
selected rows in ascending order (`for j in sel: del self.files[j]`), so
after the first delete the later indices point one element too far: on
`[0,1,2,3]` with the contiguous selected block `{1,2}` the code removes
elements `1` and `3`, duplicates `2`, and produces `[1,2,0,2]` instead
of the block-move result `[1,2,0,3]` — not even a permutation of the
input.  `move_down`, which deletes in `reversed(sel)` order, performs
the move correctly on the same input, which shows the ascending delete
in `move_up` is a slip, contradicting its own "swap the block up by
one" comment. -/
theorem C9_code_eval :
    ce_move_up [0, 1, 2, 3] [1, 2] = [1, 2, 0, 2]
    ∧ ce_move_up [0, 1, 2, 3] [1, 2] ≠ [1, 2, 0, 3]
    ∧ ¬ List.Perm (ce_move_up [0, 1, 2, 3] [1, 2]) [0, 1, 2, 3]
    ∧ ce_move_down [0, 1, 2, 3] [1, 2] = [0, 3, 1, 2] := by
  refine ⟨rfl, by decide, by decide, rfl⟩

/-! ## Disk-model lemmas -/

theorem diskRemove_idem (d : List OutFile) (p : String) :
    diskRemove (diskRemove d p) p = diskRemove d p := by
  simp [diskRemove, List.filter_filter]

theorem diskRemove_diskUpsert (d : List OutFile) (p : String) (c : Bool)
    (e : List String) :
    diskRemove (diskUpsert d ⟨p, c, e⟩) p = diskRemove d p := by
  simp [diskUpsert, List.filter_append, diskRemove_idem, diskRemove]

theorem diskRemove_append_self (d : List OutFile) (p : String) (c : Bool)
    (e : List String) :
    diskRemove (diskRemove d p ++ [⟨p, c, e⟩]) p = diskRemove d p := by
  simp [diskRemove, List.filter_append, List.filter_filter]

theorem allComplete_diskRemove {d : List OutFile} (p : String)
    (h : allComplete d) : allComplete (diskRemove d p) := by
  intro f hf
  exact h f (List.mem_of_mem_filter hf)

theorem allComplete_append {d1 d2 : List OutFile}
    (h1 : allComplete d1) (h2 : allComplete d2) : allComplete (d1 ++ d2) := by
  intro f hf
  rcases List.mem_append.1 hf with h | h
  · exact h1 f h
  · exact h2 f h

/-! ## Claim C3 — empty page list -/

/-- C3, counterexample.  The claim says both assemblers return null and
create no file on an empty page list.  `_make_pdf_from_images_with_progress`
indeed guards with `if not images: return None`, but `_make_cbz` has no
such guard: called with `[]` it opens `zipfile.ZipFile(out_path, 'w')`
(creating the file), writes no entries, and returns the path of the
empty archive it just created. -/
theorem C3_counterexample :
    (make_cbz cfgCbzOk 1000 [] "/out" "b" WState.start).1 = some "/out/b.cbz"
    ∧ (make_cbz cfgCbzOk 1000 [] "/out" "b" WState.start).2.disk
        = [⟨"/out/b.cbz", true, []⟩] := ⟨rfl, rfl⟩

/-- C3, amended.  On an empty page list the PDF assembler returns null
without touching the machine state; the CBZ assembler instead creates an
empty archive at `{outputDir}/{baseName}.cbz` and returns its path
(within `run` this is unreachable, since zero-page sources are skipped
before any assembler call). -/
theorem C3_amended (cfg : Config) (cancelAt : Nat) (d b : String) (st : WState) :
    make_pdf cfg cancelAt [] d b st = (none, st)
    ∧ (make_cbz cfg cancelAt [] d b st).1 = some (d ++ "/" ++ b ++ ".cbz")
    ∧ (make_cbz cfg cancelAt [] d b st).2
        = { st with disk := diskRemove st.disk (d ++ "/" ++ b ++ ".cbz")
              ++ [⟨d ++ "/" ++ b ++ ".cbz", true, []⟩] } := by
  refine ⟨rfl, rfl, ?_⟩
  show ({ st with disk := diskUpsert (diskUpsert st.disk _) _ } : WState) = _
  rw [WState.mk.injEq]
  refine ⟨rfl, rfl, rfl, ?_, rfl⟩
  show diskUpsert (diskUpsert st.disk ⟨_, false, []⟩) ⟨_, true, []⟩ = _
  rw [diskUpsert, diskRemove_diskUpsert]

/-! ## Claim C6 — CBZ entry names -/

theorem enumFrom_length (i : Nat) (l : List String) :
    (enumFrom i l).length = l.length := by
  induction l generalizing i with
  | nil => rfl
  | cons p rest ih => simp [enumFrom, ih]

theorem enumFrom_append (i : Nat) (l1 l2 : List String) :
    enumFrom i (l1 ++ l2) = enumFrom i l1 ++ enumFrom (i + l1.length) l2 := by
  induction l1 generalizing i with
  | nil => simp [enumFrom]
  | cons p rest ih =>
    show (i, p) :: enumFrom (i + 1) (rest ++ l2)
      = (i, p) :: (enumFrom (i + 1) rest ++ enumFrom (i + (rest.length + 1)) l2)
    rw [ih (i + 1)]
    have : i + 1 + rest.length = i + (rest.length + 1) := by omega
    rw [this]

theorem snd_mem_of_mem_enumFrom {i : Nat} {l : List String} {x : Nat × String}
    (h : x ∈ enumFrom i l) : x.2 ∈ l := by
  induction l generalizing i with
  | nil => cases h
  | cons p rest ih =>
    simp only [enumFrom] at h
    cases h with
    | head => exact List.mem_cons_self _ _
    | tail _ h => exact List.mem_cons_of_mem _ (ih h)

/-- The entry loop of `_make_cbz` when the flag is never set during it:
every write is attempted, successful writes append their entry name in
input order, and the loop performs one flag read per input page. -/
theorem cbzLoop_noCancel (cfg : Config) (cancelAt : Nat) :
    ∀ (l : List (Nat × String)) (acc : List String) (st : WState),
      st.tick + l.length ≤ cancelAt →
      cbzLoop cfg cancelAt l acc st
        = (some (acc ++ (l.filter (fun ip => cfg.writable ip.2)).map
              (fun ip => cbzEntryName ip.1 ip.2)),
           { st with tick := st.tick + l.length }) := by
  intro l
  induction l with
  | nil => intro acc st _; simp [cbzLoop]
  | cons ip rest ih =>
    intro acc st h
    obtain ⟨i, p⟩ := ip
    have hlen : st.tick + (rest.length + 1) ≤ cancelAt := by
      simpa using h
    have hr : decide (cancelAt ≤ st.tick) = false := by
      simp only [decide_eq_false_iff_not]
      omega
    have hih := ih (acc ++ if cfg.writable p then [cbzEntryName i p] else [])
      { st with tick := st.tick + 1 }
      (show st.tick + 1 + rest.length ≤ cancelAt by omega)
    simp only [cbzLoop, readCancel, hr, Bool.false_eq_true, if_false, hih,
      List.filter_cons, List.length_cons, Prod.mk.injEq, WState.mk.injEq]
    cases hw : cfg.writable p <;>
      simp [hw, List.append_assoc] <;> omega

/-- C6: with no cancellation, `_make_cbz` over pages `images` returns
`{out_dir}/{base}.cbz`, the finished archive's entries are exactly the
zero-padded 1-based position plus the page's (lowercased) extension for
every page whose write succeeded, in input order; if every write
succeeds this is all `K` pages named `0001.ext … {K:04}.ext`; a single
failing write omits only its own entry (numbering and the rest
untouched) and does not abort the archive. -/
theorem C6_cbz_entries (cfg : Config) (cancelAt : Nat) (images : List String)
    (d b : String) (st : WState)
    (hnc : st.tick + images.length ≤ cancelAt) :
    (make_cbz cfg cancelAt images d b st).1 = some (d ++ "/" ++ b ++ ".cbz")
    ∧ (make_cbz cfg cancelAt images d b st).2.disk
        = diskRemove st.disk (d ++ "/" ++ b ++ ".cbz")
          ++ [⟨d ++ "/" ++ b ++ ".cbz", true, cbzEntries cfg.writable images⟩]
    ∧ ((∀ p ∈ images, cfg.writable p = true) →
        cbzEntries cfg.writable images
          = (enumFrom 1 images).map (fun ip => cbzEntryName ip.1 ip.2)
        ∧ (cbzEntries cfg.writable images).length = images.length)
    ∧ (∀ (pre : List String) (q : String) (post : List String),
        images = pre ++ q :: post → cfg.writable q = false →
        (∀ p ∈ pre, cfg.writable p = true) → (∀ p ∈ post, cfg.writable p = true) →
        cbzEntries cfg.writable images
          = (enumFrom 1 pre).map (fun ip => cbzEntryName ip.1 ip.2)
            ++ (enumFrom (pre.length + 2) post).map (fun ip => cbzEntryName ip.1 ip.2)) := by
  have hloop := cbzLoop_noCancel cfg cancelAt (enumFrom 1 images) []
    { st with disk := diskUpsert st.disk ⟨d ++ "/" ++ b ++ ".cbz", false, []⟩ }
    (show st.tick + (enumFrom 1 images).length ≤ cancelAt by
      rw [enumFrom_length]; omega)
  refine ⟨?_, ?_, ?_, ?_⟩
  · simp only [make_cbz, hloop]
  · simp only [make_cbz, hloop, cbzEntries, List.nil_append]
    simp [diskUpsert, diskRemove_append_self]
  · intro hw
    have hfil : (enumFrom 1 images).filter (fun ip => cfg.writable ip.2)
        = enumFrom 1 images := by
      apply List.filter_eq_self.2
      intro x hx
      exact hw x.2 (snd_mem_of_mem_enumFrom hx)
    constructor
    · simp [cbzEntries, hfil]
    · simp [cbzEntries, hfil, enumFrom_length]
  · intro pre q post heq hq hpre hpost
    subst heq
    have hpre' : (enumFrom 1 pre).filter (fun ip => cfg.writable ip.2)
        = enumFrom 1 pre := by
      apply List.filter_eq_self.2
      intro x hx
      exact hpre x.2 (snd_mem_of_mem_enumFrom hx)
    have hpost' : (enumFrom (pre.length + 2) post).filter (fun ip => cfg.writable ip.2)
        = enumFrom (pre.length + 2) post := by
      apply List.filter_eq_self.2
      intro x hx
      exact hpost x.2 (snd_mem_of_mem_enumFrom hx)
    have harith : 1 + pre.length + 1 = pre.length + 2 := by omega
    have harith2 : 1 + pre.length = pre.length + 1 := by omega
    simp only [cbzEntries, enumFrom_append, enumFrom, List.filter_append,
      List.filter_cons, hq, harith, harith2, List.map_append]
    rw [hpre', hpost']
    simp

/-- C6, witness: a three-page archive where writing the middle page
fails; entries `0001.png` and `0003.jpg` are produced, `0002` is
omitted, and the call still returns the archive path. -/
theorem C6_cbz_entries_witness :
    (make_cbz cfgCbzBadWrite 1000 ["a.png", "w", "b.JPG"] "/out" "c" WState.start).1
      = some "/out/c.cbz"
    ∧ (make_cbz cfgCbzBadWrite 1000 ["a.png", "w", "b.JPG"] "/out" "c" WState.start).2.disk
      = diskRemove WState.start.disk "/out/c.cbz"
        ++ [⟨"/out/c.cbz", true, cbzEntries cfgCbzBadWrite.writable ["a.png", "w", "b.JPG"]⟩] :=
  ⟨(C6_cbz_entries cfgCbzBadWrite 1000 ["a.png", "w", "b.JPG"] "/out" "c" WState.start
      (by decide)).1,
   (C6_cbz_entries cfgCbzBadWrite 1000 ["a.png", "w", "b.JPG"] "/out" "c" WState.start
      (by decide)).2.1⟩

/-! ## Claim C7 — merge failure keeps the per-source outputs -/

/-- C7: when the merge step is requested (merge, PDF format, PyPDF
importable, at least one per-source output) and the `PdfMerger` call
raises, while the run is not cancelled, the worker logs the
"Merge failed" warning, the outputs list is left exactly as the
per-source assembly produced it, and the final
`finished_signal.emit` (modelled by `emitFinal`) delivers that unchanged
list as the JobResult. -/
theorem C7_merge_failure (cfg : Config) (cancelAt : Nat) (outs : List String)
    (st : WState)
    (hm : cfg.merge = true) (hf : cfg.fmtCBZ = false) (hp : cfg.hasPypdf = true)
    (hne : outs ≠ []) (hfail : cfg.mergeOk = false)
    (hnc : st.tick + 2 < cancelAt) :
    (mergePhase cfg cancelAt outs st).1 = outs
    ∧ (mergePhase cfg cancelAt outs st).2.msgs = st.msgs ++ ["Merge failed"]
    ∧ (emitFinal cancelAt (mergePhase cfg cancelAt outs st).1
        (cleanupPhase (mergePhase cfg cancelAt outs st).2)).1 = outs := by
  obtain ⟨p, rest, rfl⟩ := List.exists_cons_of_ne_nil hne
  have h0 : decide (cancelAt ≤ st.tick) = false := by
    simp only [decide_eq_false_iff_not]; omega
  have h1 : decide (cancelAt ≤ st.tick + 1) = false := by
    simp only [decide_eq_false_iff_not]; omega
  have h2 : decide (cancelAt ≤ st.tick + 2) = false := by
    simp only [decide_eq_false_iff_not]; omega
  have hmp : mergePhase cfg cancelAt (p :: rest) st
      = (p :: rest, { st with tick := st.tick + 2, msgs := st.msgs ++ ["Merge failed"] }) := by
    simp [mergePhase, mergeAppendLoop, readCancel, hm, hf, hp, hfail, h0, h1]
  refine ⟨by rw [hmp], by rw [hmp], ?_⟩
  rw [hmp]
  simp [emitFinal, cleanupPhase, readCancel, h2]

/-- C7, witness: a concrete failing merge over one produced output. -/
theorem C7_merge_failure_witness :
    (mergePhase cfgMergeFails 100 ["/out/a.pdf"] WState.start).1 = ["/out/a.pdf"]
    ∧ (mergePhase cfgMergeFails 100 ["/out/a.pdf"] WState.start).2.msgs
        = WState.start.msgs ++ ["Merge failed"]
    ∧ (emitFinal 100 (mergePhase cfgMergeFails 100 ["/out/a.pdf"] WState.start).1
        (cleanupPhase (mergePhase cfgMergeFails 100 ["/out/a.pdf"] WState.start).2)).1
        = ["/out/a.pdf"] :=
  C7_merge_failure cfgMergeFails 100 ["/out/a.pdf"] WState.start
    rfl rfl rfl (by simp) rfl (by decide)

/-! ## Claim C8 — PDF page counts and unreadable pages -/

theorem emitLoop_noCancel (cancelAt : Nat) :
    ∀ (n : Nat) (st : WState), st.tick + n ≤ cancelAt →
      emitLoop cancelAt n st = { st with tick := st.tick + n } := by
  intro n
  induction n with
  | zero => intro st _; simp [emitLoop]
  | succ m ih =>
    intro st h
    have hr : decide (cancelAt ≤ st.tick) = false := by
      simp only [decide_eq_false_iff_not]; omega
    have hih := ih { st with tick := st.tick + 1 }
      (show st.tick + 1 + m ≤ cancelAt by omega)
    simp only [emitLoop, readCancel, hr, Bool.false_eq_true, if_false, hih,
      WState.mk.injEq, and_true, true_and]
    omega

theorem pilLoop_noCancel (cfg : Config) (cancelAt : Nat) :
    ∀ (l : List String) (acc : List String) (st : WState),
      st.tick + l.length ≤ cancelAt →
      pilLoop cfg cancelAt l acc st
        = (some (acc ++ l.filter cfg.readable),
           { st with tick := st.tick + l.length }) := by
  intro l
  induction l with
  | nil => intro acc st _; simp [pilLoop]
  | cons p rest ih =>
    intro acc st h
    have hlen : st.tick + (rest.length + 1) ≤ cancelAt := by simpa using h
    have hr : decide (cancelAt ≤ st.tick) = false := by
      simp only [decide_eq_false_iff_not]; omega
    have hih := ih (acc ++ if cfg.readable p then [p] else [])
      { st with tick := st.tick + 1 }
      (show st.tick + 1 + rest.length ≤ cancelAt by omega)
    simp only [pilLoop, readCancel, hr, Bool.false_eq_true, if_false, hih,
      List.filter_cons, List.length_cons, Prod.mk.injEq, WState.mk.injEq]
    cases hw : cfg.readable p <;>
      simp [hw, List.append_assoc] <;> omega

theorem length_filter_split (p : String → Bool) (l : List String) :
    (l.filter p).length + (l.filter (fun x => !p x)).length = l.length := by
  induction l with
  | nil => rfl
  | cons x rest ih =>
    cases hx : p x <;> simp [List.filter_cons, hx] <;> omega

/-- The PIL fallback with a readable first page and no cancellation:
the whole document is written, containing the first page followed by
every further page that decodes. -/
theorem make_pdf_pil_noCancel (cfg : Config) (cancelAt : Nat) (p0 : String)
    (rest : List String) (out_path : String) (st : WState)
    (h0 : cfg.readable p0 = true)
    (hnc : st.tick + rest.length + 1 ≤ cancelAt) :
    make_pdf_pil cfg cancelAt (p0 :: rest) out_path st
      = (some out_path,
         { st with tick := st.tick + rest.length + 1,
                   disk := diskUpsert st.disk
                     ⟨out_path, true, p0 :: rest.filter cfg.readable⟩ }) := by
  have hloop := pilLoop_noCancel cfg cancelAt rest [] st
    (show st.tick + rest.length ≤ cancelAt by omega)
  have hr : decide (cancelAt ≤ st.tick + rest.length) = false := by
    simp only [decide_eq_false_iff_not]; omega
  simp [make_pdf_pil, h0, hloop, readCancel, hr]

/-- The PIL fallback with an unreadable first page:
`Image.open(images[0])` raises outside any inner handler, the outer
`except` logs "PDF error", and the call returns `None`. -/
theorem make_pdf_pil_badFirst (cfg : Config) (cancelAt : Nat) (p0 : String)
    (rest : List String) (out_path : String) (st : WState)
    (h0 : cfg.readable p0 = false) :
    make_pdf_pil cfg cancelAt (p0 :: rest) out_path st
      = (none, { st with msgs := st.msgs ++ ["PDF error"] }) := by
  simp [make_pdf_pil, h0]

/-- C8, counterexample.  The claim says `M` unreadable pages out of `K`
yield a `K-M`-page document with the `M` pages recorded as skipped.
With img2pdf importable, pages `["bad", "good"]` (`K = 2`, `M = 1`) and
`"bad"` undecodable: `img2pdf.convert` raises, and the PIL fallback then
opens `images[0]` outside its inner `try`, so the whole assembly aborts
with `None` — no 1-page document is produced (no complete output file
exists at all; only the empty file left by the failed img2pdf attempt),
and nothing is recorded beyond a generic "PDF error" message. -/
theorem C8_counterexample :
    (make_pdf cfgPdfBad 1000 ["bad", "good"] "/o" "x" WState.start).1 = none
    ∧ (make_pdf cfgPdfBad 1000 ["bad", "good"] "/o" "x" WState.start).2.disk.filter
        (fun f => f.complete) = [] := by
  constructor <;> rfl

/-- C8, amended.  With no cancellation: if every page of `p0 :: rest`
decodes, the assembler produces a document whose pages are exactly the
input pages (count `K`); if some pages are undecodable but the first
page decodes, the document contains the first page plus every further
decodable page — exactly `K - M` pages when `M` of the `K` are
undecodable, the undecodable ones silently omitted; if the first page is
undecodable the assembly returns null and produces no document. -/
theorem C8_pdf_pages (cfg : Config) (cancelAt : Nat) (p0 : String)
    (rest : List String) (d b : String) (st : WState)
    (hnc : st.tick + rest.length + 4 ≤ cancelAt) :
    (cfg.readable p0 = true →
      (make_pdf cfg cancelAt (p0 :: rest) d b st).1 = some (d ++ "/" ++ b ++ ".pdf")
      ∧ (make_pdf cfg cancelAt (p0 :: rest) d b st).2.disk
          = diskRemove st.disk (d ++ "/" ++ b ++ ".pdf")
            ++ [⟨d ++ "/" ++ b ++ ".pdf", true, p0 :: rest.filter cfg.readable⟩]
      ∧ (p0 :: rest.filter cfg.readable).length
          + ((p0 :: rest).filter (fun p => !cfg.readable p)).length
          = rest.length + 1)
    ∧ (cfg.readable p0 = false →
      (make_pdf cfg cancelAt (p0 :: rest) d b st).1 = none) := by
  have h0 : decide (cancelAt ≤ st.tick) = false := by
    simp only [decide_eq_false_iff_not]; omega
  have h1 : decide (cancelAt ≤ st.tick + 1) = false := by
    simp only [decide_eq_false_iff_not]; omega
  constructor
  · intro hr0
    have harith : (p0 :: rest.filter cfg.readable).length
        + ((p0 :: rest).filter (fun p => !cfg.readable p)).length
        = rest.length + 1 := by
      have := length_filter_split cfg.readable rest
      simp [List.filter_cons, hr0]
      omega
    cases himg : cfg.hasImg2pdf with
    | true =>
      cases hall : (p0 :: rest).all cfg.readable with
      | true =>
        have hallr : rest.filter cfg.readable = rest :=
          List.filter_eq_self.2 fun x hx =>
            (List.all_eq_true.1 hall) x (List.mem_cons_of_mem _ hx)
        have hemit := emitLoop_noCancel cancelAt (rest.length + 1)
          { tick := st.tick + 1 + 1, tempReg := st.tempReg, tempLive := st.tempLive,
            disk := diskRemove st.disk (d ++ "/" ++ b ++ ".pdf")
              ++ [⟨d ++ "/" ++ b ++ ".pdf", true, p0 :: rest⟩],
            msgs := st.msgs }
          (show st.tick + 1 + 1 + (rest.length + 1) ≤ cancelAt by omega)
        have h3 : ¬ (cancelAt ≤ st.tick + 1 + 1 + (rest.length + 1)) := by omega
        refine ⟨?_, ?_, harith⟩ <;>
          simp [make_pdf, readCancel, h0, h1, himg, hall, hemit, h3, hallr,
            diskUpsert, diskRemove_append_self]
      | false =>
        have hpil := make_pdf_pil_noCancel cfg cancelAt p0 rest (d ++ "/" ++ b ++ ".pdf")
          { tick := st.tick + 1 + 1, tempReg := st.tempReg, tempLive := st.tempLive,
            disk := diskRemove st.disk (d ++ "/" ++ b ++ ".pdf")
              ++ [⟨d ++ "/" ++ b ++ ".pdf", false, []⟩],
            msgs := st.msgs ++ ["img2pdf failed -> fallback PIL"] }
          hr0 (show st.tick + 1 + 1 + rest.length + 1 ≤ cancelAt by omega)
        refine ⟨?_, ?_, harith⟩ <;>
          simp [make_pdf, readCancel, h0, h1, himg, hall, hpil,
            diskUpsert, diskRemove_append_self]
    | false =>
      have hpil := make_pdf_pil_noCancel cfg cancelAt p0 rest (d ++ "/" ++ b ++ ".pdf")
        { tick := st.tick + 1, tempReg := st.tempReg, tempLive := st.tempLive,
          disk := st.disk, msgs := st.msgs }
        hr0 (show st.tick + 1 + rest.length + 1 ≤ cancelAt by omega)
      refine ⟨?_, ?_, harith⟩ <;>
        simp [make_pdf, readCancel, h0, himg, hpil, diskUpsert]
  · intro hr0
    cases himg : cfg.hasImg2pdf with
    | true =>
      have hall : (p0 :: rest).all cfg.readable = false := by
        simp [List.all_cons, hr0]
      have hpil := make_pdf_pil_badFirst cfg cancelAt p0 rest (d ++ "/" ++ b ++ ".pdf")
        { tick := st.tick + 1 + 1, tempReg := st.tempReg, tempLive := st.tempLive,
          disk := diskRemove st.disk (d ++ "/" ++ b ++ ".pdf")
            ++ [⟨d ++ "/" ++ b ++ ".pdf", false, []⟩],
          msgs := st.msgs ++ ["img2pdf failed -> fallback PIL"] }
        hr0
      simp [make_pdf, readCancel, h0, h1, himg, hall, hpil, diskUpsert]
    | false =>
      have hpil := make_pdf_pil_badFirst cfg cancelAt p0 rest (d ++ "/" ++ b ++ ".pdf")
        { tick := st.tick + 1, tempReg := st.tempReg, tempLive := st.tempLive,
          disk := st.disk, msgs := st.msgs }
        hr0
      simp [make_pdf, readCancel, h0, himg, hpil]

/-- C8, witness: three pages with the middle one undecodable and a
readable first page yield a 2-page document. -/
theorem C8_pdf_pages_witness :
    (make_pdf cfgPdfBad 1000 ("good" :: ["bad", "g2"]) "/o" "x" WState.start).1
      = some "/o/x.pdf"
    ∧ (make_pdf cfgPdfBad 1000 ("good" :: ["bad", "g2"]) "/o" "x" WState.start).2.disk
      = diskRemove WState.start.disk "/o/x.pdf"
        ++ [⟨"/o/x.pdf", true, "good" :: ["bad", "g2"].filter cfgPdfBad.readable⟩] :=
  ⟨((C8_pdf_pages cfgPdfBad 1000 "good" ["bad", "g2"] "/o" "x" WState.start
      (by decide)).1 (by decide)).1,
   ((C8_pdf_pages cfgPdfBad 1000 "good" ["bad", "g2"] "/o" "x" WState.start
      (by decide)).1 (by decide)).2.1⟩

/-! ## Natural-sort structure: alternating runs -/

/-- Shape invariant of `re.split(r'(\d+)', s)`: the run list alternates,
starting (and, by the odd length, ending) with a possibly-empty
digit-free run; the captured digit runs are nonempty and all-digit.
The Bool index tells which kind is expected next: `false` a text run,
`true` a digit run. -/
inductive AltRuns : Bool → List (List Char) → Prop where
  | nil : ∀ {b}, AltRuns b []
  | txt : ∀ {r rs}, (∀ c ∈ r, c.isDigit = false) → AltRuns true rs →
      AltRuns false (r :: rs)
  | dig : ∀ {r rs}, r ≠ [] → (∀ c ∈ r, c.isDigit = true) → AltRuns false rs →
      AltRuns true (r :: rs)

theorem altRuns_splitRuns (cs : List Char) : AltRuns false (splitRuns cs) := by
  induction cs with
  | nil =>
    exact .txt (by intro c hc; cases hc) .nil
  | cons c cs ih =>
    show AltRuns false
      (match splitRuns cs with
       | [] => [[]]
       | t0 :: rest =>
         if c.isDigit then
           if t0.isEmpty then
             match rest with
             | d :: rest2 => [] :: (c :: d) :: rest2
             | [] => [[], [c], []]
           else [] :: [c] :: t0 :: rest
         else (c :: t0) :: rest)
    rcases hsp : splitRuns cs with _ | ⟨t0, rest⟩
    · exact .txt (by intro x hx; cases hx) .nil
    · rw [hsp] at ih
      cases ih with
      | txt ht0 hrest =>
        cases hc : c.isDigit with
        | true =>
          cases ht0e : t0.isEmpty with
          | true =>
            have ht0nil : t0 = [] := by
              cases t0
              · rfl
              · simp at ht0e
            subst ht0nil
            rcases rest with _ | ⟨dr, rest2⟩
            · simp only [if_pos rfl, List.isEmpty_nil]
              exact .txt (by intro x hx; cases hx)
                (.dig (by simp) (by intro x hx; simp at hx; subst hx; exact hc)
                  (.txt (by intro x hx; cases hx) .nil))
            · cases hrest with
              | dig hdne hdall hrest2 =>
                simp only [if_pos rfl, List.isEmpty_nil]
                refine .txt (by intro x hx; cases hx) (.dig (by simp) ?_ hrest2)
                intro x hx
                rcases List.mem_cons.1 hx with h | h
                · subst h; exact hc
                · exact hdall x h
          | false =>
            simp only [if_pos rfl, ht0e, Bool.false_eq_true, if_false]
            exact .txt (by intro x hx; cases hx)
              (.dig (by simp) (by intro x hx; simp at hx; subst hx; exact hc)
                (.txt ht0 hrest))
        | false =>
          simp only [Bool.false_eq_true, if_false]
          refine .txt ?_ hrest
          intro x hx
          rcases List.mem_cons.1 hx with h | h
          · subst h; exact hc
          · exact ht0 x h

theorem splitRuns_length_odd (cs : List Char) : (splitRuns cs).length % 2 = 1 := by
  induction cs with
  | nil => rfl
  | cons c cs ih =>
    show (match splitRuns cs with
       | [] => [[]]
       | t0 :: rest =>
         if c.isDigit then
           if t0.isEmpty then
             match rest with
             | d :: rest2 => [] :: (c :: d) :: rest2
             | [] => [[], [c], []]
           else [] :: [c] :: t0 :: rest
         else (c :: t0) :: rest).length % 2 = 1
    rcases hsp : splitRuns cs with _ | ⟨t0, rest⟩
    · rfl
    · rw [hsp] at ih
      cases hc : c.isDigit with
      | true =>
        cases ht0e : t0.isEmpty with
        | true =>
          rcases rest with _ | ⟨dr, rest2⟩
          · simp [ht0e]
          · simp only [if_pos rfl, ht0e, ite_true, List.length_cons] at ih ⊢
            omega
        | false =>
          simp only [if_pos rfl, ht0e, ite_true, Bool.false_eq_true, ite_false,
            List.length_cons] at ih ⊢
          omega
      | false =>
        simp only [Bool.false_eq_true, if_false, List.length_cons] at ih ⊢
        omega

theorem pyIsdigit_of_txt {r : List Char} (h : ∀ c ∈ r, c.isDigit = false) :
    pyIsdigit r = false := by
  cases r with
  | nil => rfl
  | cons c rest =>
    have := h c (List.mem_cons_self _ _)
    simp [pyIsdigit, this]

theorem pyIsdigit_of_dig {r : List Char} (hne : r ≠ [])
    (h : ∀ c ∈ r, c.isDigit = true) : pyIsdigit r = true := by
  cases r with
  | nil => exact absurd rfl hne
  | cons c rest =>
    simp only [pyIsdigit, List.isEmpty_cons, Bool.not_false, Bool.true_and]
    exact List.all_eq_true.2 h

/-- Positionwise shape of the key list obtained from an alternating run
list: string elements exactly at the positions whose parity matches the
starting kind. -/
theorem altRuns_key_get {b : Bool} {rs : List (List Char)} (h : AltRuns b rs) :
    ∀ (i : Nat) (hi : i < (rs.map keyOfRun).length),
      keyElemIsStr ((rs.map keyOfRun).get ⟨i, hi⟩) = (decide (i % 2 = 0) != b) := by
  induction h with
  | nil => intro i hi; simp at hi
  | @txt r rs hfree _ ih =>
    intro i hi
    cases i with
    | zero =>
      simp [keyOfRun, pyIsdigit_of_txt hfree, keyElemIsStr]
    | succ j =>
      have hj : j < (rs.map keyOfRun).length := by
        simp only [List.length_map, List.length_cons] at hi ⊢
        omega
      have := ih j hj
      simp only [List.map_cons, List.get_cons_succ, this]
      have hpar : decide ((j + 1) % 2 = 0) = !(decide (j % 2 = 0)) := by
        by_cases hp : j % 2 = 0
        · have : ¬((j + 1) % 2 = 0) := by omega
          simp [hp, this]
        · have : (j + 1) % 2 = 0 := by omega
          simp [hp, this]
      cases hd : decide (j % 2 = 0) <;> simp [hpar, hd]
  | @dig r rs hne hall _ ih =>
    intro i hi
    cases i with
    | zero =>
      simp [keyOfRun, pyIsdigit_of_dig hne hall, keyElemIsStr]
    | succ j =>
      have hj : j < (rs.map keyOfRun).length := by
        simp only [List.length_map, List.length_cons] at hi ⊢
        omega
      have := ih j hj
      simp only [List.map_cons, List.get_cons_succ, this]
      have hpar : decide ((j + 1) % 2 = 0) = !(decide (j % 2 = 0)) := by
        by_cases hp : j % 2 = 0
        · have : ¬((j + 1) % 2 = 0) := by omega
          simp [hp, this]
        · have : (j + 1) % 2 = 0 := by omega
          simp [hp, this]
      cases hd : decide (j % 2 = 0) <;> simp [hpar, hd]

/-! ## Claim C10 — key shape and comparability -/

/-- C10: every `natural_sort_key` value has odd length, holds string
elements exactly at its even positions (and integers at its odd ones) —
so it begins and ends with a possibly-empty string run — and therefore
any two keys are positionwise of the same kind: Python's elementwise
list comparison never compares an `int` with a `str`, and sorting any
list of strings by this key is total. -/
theorem C10_key_shape (s : String) :
    (natural_sort_key s).length % 2 = 1
    ∧ (∀ (i : Nat) (hi : i < (natural_sort_key s).length),
        keyElemIsStr ((natural_sort_key s).get ⟨i, hi⟩) = decide (i % 2 = 0))
    ∧ (∀ (t : String) (i : Nat) (hs : i < (natural_sort_key s).length)
        (ht : i < (natural_sort_key t).length),
        keyElemIsStr ((natural_sort_key s).get ⟨i, hs⟩)
          = keyElemIsStr ((natural_sort_key t).get ⟨i, ht⟩)) := by
  have hget : ∀ (u : String) (i : Nat) (hi : i < (natural_sort_key u).length),
      keyElemIsStr ((natural_sort_key u).get ⟨i, hi⟩) = decide (i % 2 = 0) := by
    intro u i hi
    have := altRuns_key_get (altRuns_splitRuns u.toList) i hi
    simpa [natural_sort_key] using this
  refine ⟨?_, hget s, ?_⟩
  · simpa [natural_sort_key] using splitRuns_length_odd s.toList
  · intro t i hs ht
    rw [hget s i hs, hget t i ht]

/-- C10, witness: the shape theorem applied to two concrete names at a
concrete position. -/
theorem C10_key_shape_witness :
    keyElemIsStr ((natural_sort_key "a1").get ⟨1, by decide⟩)
      = keyElemIsStr ((natural_sort_key "b22").get ⟨1, by decide⟩) :=
  (C10_key_shape "a1").2.2 "b22" 1 (by decide) (by decide)

/-! ## Claim C5 — natural order -/

/-- The code comparator agrees with the spec comparator on any two run
lists of matching alternation kind (both produced by the same splitter,
hence positionwise of the same kind). -/
theorem keyListLt_eq_specRunsLt {b : Bool} :
    ∀ {rs1 rs2 : List (List Char)}, AltRuns b rs1 → AltRuns b rs2 →
      keyListLt (rs1.map keyOfRun) (rs2.map keyOfRun) = specRunsLt rs1 rs2 := by
  intro rs1
  induction rs1 generalizing b with
  | nil =>
    intro rs2 _ _
    cases rs2 <;> rfl
  | cons r1 rs1' ih =>
    intro rs2 h1 h2
    cases rs2 with
    | nil => rfl
    | cons r2 rs2' =>
      cases h1 with
      | txt hfree1 htail1 =>
        cases h2 with
        | txt hfree2 htail2 =>
          have hd1 := pyIsdigit_of_txt hfree1
          have hd2 := pyIsdigit_of_txt hfree2
          have heq : (keyOfRun r1 = keyOfRun r2) ↔ (specRunEq r1 r2 = true) := by
            simp [keyOfRun, hd1, hd2, specRunEq, ciStrEq, lowerRun]
          have hlt : keyElemLt (keyOfRun r1) (keyOfRun r2) = specRunLt r1 r2 := by
            simp [keyOfRun, hd1, hd2, specRunLt, ciStrLt, keyElemLt, lowerRun]
          simp only [List.map_cons, keyListLt, specRunsLt]
          by_cases he : keyOfRun r1 = keyOfRun r2
          · rw [if_pos he, if_pos (heq.1 he), ih htail1 htail2]
          · rw [if_neg he, if_neg (fun hc => he (heq.2 hc)), hlt]
      | dig hne1 hall1 htail1 =>
        cases h2 with
        | dig hne2 hall2 htail2 =>
          have hd1 := pyIsdigit_of_dig hne1 hall1
          have hd2 := pyIsdigit_of_dig hne2 hall2
          have heq : (keyOfRun r1 = keyOfRun r2) ↔ (specRunEq r1 r2 = true) := by
            simp [keyOfRun, hd1, hd2, specRunEq]
          have hlt : keyElemLt (keyOfRun r1) (keyOfRun r2) = specRunLt r1 r2 := by
            simp [keyOfRun, hd1, hd2, specRunLt, keyElemLt]
          simp only [List.map_cons, keyListLt, specRunsLt]
          by_cases he : keyOfRun r1 = keyOfRun r2
          · rw [if_pos he, if_pos (heq.1 he), ih htail1 htail2]
          · rw [if_neg he, if_neg (fun hc => he (heq.2 hc)), hlt]

/-- C5: sorting by `natural_sort_key` is sorting by the spec's natural
order.  The key comparison coincides, on every pair of names, with the
spec's definition (split into alternating non-digit/digit runs, digit
runs compared as integers, non-digit runs case-insensitively); the
resulting sort is a permutation of its input; and the spec's example
sorts as required. -/
theorem C5_natural_order :
    (∀ s t : String, natKeyLt s t = specNaturalLt s t)
    ∧ (∀ l : List String, List.Perm (natural_sorted l) l)
    ∧ natural_sorted ["img2.png", "img10.png", "img1.png"]
        = ["img1.png", "img2.png", "img10.png"] := by
  refine ⟨?_, ?_, by decide⟩
  · intro s t
    exact keyListLt_eq_specRunsLt (altRuns_splitRuns s.toList)
      (altRuns_splitRuns t.toList)
  · intro l
    exact List.perm_insertionSort _ l

/-! ## Worker state-effect lemmas (towards claim C1) -/

theorem allComplete_nil : allComplete [] := by
  intro f hf
  cases hf

theorem allComplete_diskUpsert_true {d : List OutFile} (p : String)
    (e : List String) (h : allComplete d) :
    allComplete (diskUpsert d ⟨p, true, e⟩) := by
  refine allComplete_append (allComplete_diskRemove p h) ?_
  intro f hf
  rcases List.mem_singleton.1 hf with rfl
  rfl

theorem cbzLoop_tempReg (cfg : Config) (cancelAt : Nat) :
    ∀ (l : List (Nat × String)) (acc : List String) (st : WState),
      (cbzLoop cfg cancelAt l acc st).2.tempReg = st.tempReg := by
  intro l
  induction l with
  | nil => intro acc st; rfl
  | cons ip rest ih =>
    intro acc st
    obtain ⟨i, p⟩ := ip
    by_cases hc : cancelAt ≤ st.tick <;> simp [cbzLoop, readCancel, hc, ih]

theorem cbzLoop_tempLive (cfg : Config) (cancelAt : Nat) :
    ∀ (l : List (Nat × String)) (acc : List String) (st : WState),
      (cbzLoop cfg cancelAt l acc st).2.tempLive = st.tempLive := by
  intro l
  induction l with
  | nil => intro acc st; rfl
  | cons ip rest ih =>
    intro acc st
    obtain ⟨i, p⟩ := ip
    by_cases hc : cancelAt ≤ st.tick <;> simp [cbzLoop, readCancel, hc, ih]

theorem cbzLoop_disk (cfg : Config) (cancelAt : Nat) :
    ∀ (l : List (Nat × String)) (acc : List String) (st : WState),
      (cbzLoop cfg cancelAt l acc st).2.disk = st.disk := by
  intro l
  induction l with
  | nil => intro acc st; rfl
  | cons ip rest ih =>
    intro acc st
    obtain ⟨i, p⟩ := ip
    by_cases hc : cancelAt ≤ st.tick <;> simp [cbzLoop, readCancel, hc, ih]

theorem pilLoop_tempReg (cfg : Config) (cancelAt : Nat) :
    ∀ (l : List String) (acc : List String) (st : WState),
      (pilLoop cfg cancelAt l acc st).2.tempReg = st.tempReg := by
  intro l
  induction l with
  | nil => intro acc st; rfl
  | cons p rest ih =>
    intro acc st
    by_cases hc : cancelAt ≤ st.tick <;> simp [pilLoop, readCancel, hc, ih]

theorem pilLoop_tempLive (cfg : Config) (cancelAt : Nat) :
    ∀ (l : List String) (acc : List String) (st : WState),
      (pilLoop cfg cancelAt l acc st).2.tempLive = st.tempLive := by
  intro l
  induction l with
  | nil => intro acc st; rfl
  | cons p rest ih =>
    intro acc st
    by_cases hc : cancelAt ≤ st.tick <;> simp [pilLoop, readCancel, hc, ih]

theorem pilLoop_disk (cfg : Config) (cancelAt : Nat) :
    ∀ (l : List String) (acc : List String) (st : WState),
      (pilLoop cfg cancelAt l acc st).2.disk = st.disk := by
  intro l
  induction l with
  | nil => intro acc st; rfl
  | cons p rest ih =>
    intro acc st
    by_cases hc : cancelAt ≤ st.tick <;> simp [pilLoop, readCancel, hc, ih]

theorem emitLoop_tempReg (cancelAt : Nat) :
    ∀ (n : Nat) (st : WState), (emitLoop cancelAt n st).tempReg = st.tempReg := by
  intro n
  induction n with
  | zero => intro st; rfl
  | succ m ih =>
    intro st
    by_cases hc : cancelAt ≤ st.tick <;> simp [emitLoop, readCancel, hc, ih]

theorem emitLoop_tempLive (cancelAt : Nat) :
    ∀ (n : Nat) (st : WState), (emitLoop cancelAt n st).tempLive = st.tempLive := by
  intro n
  induction n with
  | zero => intro st; rfl
  | succ m ih =>
    intro st
    by_cases hc : cancelAt ≤ st.tick <;> simp [emitLoop, readCancel, hc, ih]

theorem emitLoop_disk (cancelAt : Nat) :
    ∀ (n : Nat) (st : WState), (emitLoop cancelAt n st).disk = st.disk := by
  intro n
  induction n with
  | zero => intro st; rfl
  | succ m ih =>
    intro st
    by_cases hc : cancelAt ≤ st.tick <;> simp [emitLoop, readCancel, hc, ih]

theorem mergeAppendLoop_tempReg (cfg : Config) (cancelAt : Nat) :
    ∀ (l : List String) (st : WState),
      (mergeAppendLoop cfg cancelAt l st).2.tempReg = st.tempReg := by
  intro l
  induction l with
  | nil => intro st; rfl
  | cons p rest ih =>
    intro st
    by_cases hc : cancelAt ≤ st.tick <;>
      cases hm : cfg.mergeOk <;> simp [mergeAppendLoop, readCancel, hc, hm, ih]

theorem mergeAppendLoop_tempLive (cfg : Config) (cancelAt : Nat) :
    ∀ (l : List String) (st : WState),
      (mergeAppendLoop cfg cancelAt l st).2.tempLive = st.tempLive := by
  intro l
  induction l with
  | nil => intro st; rfl
  | cons p rest ih =>
    intro st
    by_cases hc : cancelAt ≤ st.tick <;>
      cases hm : cfg.mergeOk <;> simp [mergeAppendLoop, readCancel, hc, hm, ih]

theorem mergeAppendLoop_disk (cfg : Config) (cancelAt : Nat) :
    ∀ (l : List String) (st : WState),
      (mergeAppendLoop cfg cancelAt l st).2.disk = st.disk := by
  intro l
  induction l with
  | nil => intro st; rfl
  | cons p rest ih =>
    intro st
    by_cases hc : cancelAt ≤ st.tick <;>
      cases hm : cfg.mergeOk <;> simp [mergeAppendLoop, readCancel, hc, hm, ih]

/-- `_make_cbz` never touches the temp registry, and whatever it leaves
on disk is finished: on cancellation the partly written archive is
removed, on success it is finalized. -/
theorem make_cbz_state (cfg : Config) (cancelAt : Nat) (images : List String)
    (d b : String) (st : WState) :
    (make_cbz cfg cancelAt images d b st).2.tempReg = st.tempReg
    ∧ (make_cbz cfg cancelAt images d b st).2.tempLive = st.tempLive
    ∧ (allComplete st.disk →
        allComplete (make_cbz cfg cancelAt images d b st).2.disk) := by
  rcases hloop : cbzLoop cfg cancelAt (enumFrom 1 images) [] { st with disk := diskUpsert st.disk ⟨d ++ "/" ++ b ++ ".cbz", false, []⟩ } with ⟨res, st2⟩
  have hreg := cbzLoop_tempReg cfg cancelAt (enumFrom 1 images) [] { st with disk := diskUpsert st.disk ⟨d ++ "/" ++ b ++ ".cbz", false, []⟩ }
  have hlive := cbzLoop_tempLive cfg cancelAt (enumFrom 1 images) [] { st with disk := diskUpsert st.disk ⟨d ++ "/" ++ b ++ ".cbz", false, []⟩ }
  have hdisk := cbzLoop_disk cfg cancelAt (enumFrom 1 images) [] { st with disk := diskUpsert st.disk ⟨d ++ "/" ++ b ++ ".cbz", false, []⟩ }
  rw [hloop] at hreg hlive hdisk
  rcases res with _ | es
  · refine ⟨?_, ?_, ?_⟩ <;> simp only [make_cbz, hloop]
    · exact hreg
    · exact hlive
    · intro hall
      show allComplete (diskRemove st2.disk (d ++ "/" ++ b ++ ".cbz"))
      rw [hdisk]
      show allComplete (diskRemove (diskUpsert st.disk ⟨_, false, []⟩) _)
      rw [diskRemove_diskUpsert]
      exact allComplete_diskRemove _ hall
  · refine ⟨?_, ?_, ?_⟩ <;> simp only [make_cbz, hloop]
    · exact hreg
    · exact hlive
    · intro hall
      show allComplete (diskUpsert st2.disk ⟨d ++ "/" ++ b ++ ".cbz", true, es⟩)
      rw [hdisk]
      show allComplete (diskUpsert (diskUpsert st.disk ⟨_, false, []⟩) ⟨_, true, es⟩)
      have hu : diskUpsert (diskUpsert st.disk ⟨d ++ "/" ++ b ++ ".cbz", false, []⟩) ⟨d ++ "/" ++ b ++ ".cbz", true, es⟩ = diskRemove st.disk (d ++ "/" ++ b ++ ".cbz") ++ [⟨d ++ "/" ++ b ++ ".cbz", true, es⟩] := by
        show diskRemove (diskUpsert st.disk ⟨_, false, []⟩) _ ++ _ = _
        rw [diskRemove_diskUpsert]
      rw [hu]
      refine allComplete_append (allComplete_diskRemove _ hall) ?_
      intro f hf
      rcases List.mem_singleton.1 hf with rfl
      rfl

/-- The PIL fallback never touches the temp registry and, on its own,
only adds a finished document to disk (on failure or cancellation it
adds nothing). -/
theorem make_pdf_pil_state (cfg : Config) (cancelAt : Nat) (images : List String)
    (out_path : String) (st : WState) :
    (make_pdf_pil cfg cancelAt images out_path st).2.tempReg = st.tempReg
    ∧ (make_pdf_pil cfg cancelAt images out_path st).2.tempLive = st.tempLive
    ∧ (allComplete st.disk →
        allComplete (make_pdf_pil cfg cancelAt images out_path st).2.disk) := by
  rcases images with _ | ⟨p0, rest⟩
  · exact ⟨rfl, rfl, fun h => h⟩
  · cases hr0 : cfg.readable p0 with
    | false => simp [make_pdf_pil, hr0]
    | true =>
      unfold make_pdf_pil
      rcases hloop : pilLoop cfg cancelAt rest [] st with ⟨res, st2⟩
      have hreg := pilLoop_tempReg cfg cancelAt rest [] st
      have hlive := pilLoop_tempLive cfg cancelAt rest [] st
      have hdisk := pilLoop_disk cfg cancelAt rest [] st
      rw [hloop] at hreg hlive hdisk
      rcases res with _ | others
      · simp only [hr0, ite_true, hloop]
        exact ⟨hreg, hlive, fun h => by rw [hdisk]; exact h⟩
      · simp only [hr0, ite_true, hloop, readCancel]
        by_cases hc : cancelAt ≤ st2.tick
        · simp only [hc, decide_True, ite_true]
          exact ⟨hreg, hlive, fun h => by rw [hdisk]; exact h⟩
        · simp only [hc, decide_False, Bool.false_eq_true, ite_false]
          refine ⟨hreg, hlive, ?_⟩
          intro h
          show allComplete (diskUpsert st2.disk ⟨out_path, true, p0 :: others⟩)
          rw [hdisk]
          exact allComplete_diskUpsert_true _ _ h

theorem gatherLoop_disk (cancelAt : Nat) :
    ∀ (items : List Item) (acc : List String) (st : WState),
      (gatherLoop cancelAt items acc st).2.disk = st.disk := by
  intro items
  induction items with
  | nil => intro acc st; rfl
  | cons it rest ih =>
    intro acc st
    by_cases hc : cancelAt ≤ st.tick <;> simp [gatherLoop, readCancel, hc, ih]

theorem gatherLoop_msgs (cancelAt : Nat) :
    ∀ (items : List Item) (acc : List String) (st : WState),
      (gatherLoop cancelAt items acc st).2.msgs = st.msgs := by
  intro items
  induction items with
  | nil => intro acc st; rfl
  | cons it rest ih =>
    intro acc st
    by_cases hc : cancelAt ≤ st.tick <;> simp [gatherLoop, readCancel, hc, ih]

theorem gatherLoop_tempsSub (cancelAt : Nat) :
    ∀ (items : List Item) (acc : List String) (st : WState),
      tempsSub st → tempsSub (gatherLoop cancelAt items acc st).2 := by
  intro items
  induction items with
  | nil => intro acc st h; exact h
  | cons it rest ih =>
    intro acc st h
    by_cases hc : cancelAt ≤ st.tick
    · simp only [gatherLoop, readCancel, hc, decide_True, ite_true]
      exact h
    · simp only [gatherLoop, readCancel, hc, decide_False, Bool.false_eq_true,
        ite_false]
      refine ih _ _ ?_
      intro x hx
      simp only [List.mem_append] at hx ⊢
      rcases hx with hx | hx
      · exact Or.inl (h x hx)
      · exact Or.inr hx

theorem gatherLoop_pages (cancelAt : Nat) :
    ∀ (items : List Item) (acc : List String) (st : WState),
      ∀ p ∈ (gatherLoop cancelAt items acc st).1,
        p ∈ acc ∨ ∃ it ∈ items, p ∈ it.pages := by
  intro items
  induction items with
  | nil =>
    intro acc st p hp
    exact Or.inl hp
  | cons it rest ih =>
    intro acc st p hp
    by_cases hc : cancelAt ≤ st.tick
    · simp only [gatherLoop, readCancel, hc, decide_True, ite_true] at hp
      exact Or.inl hp
    · simp only [gatherLoop, readCancel, hc, decide_False, Bool.false_eq_true,
        ite_false] at hp
      rcases ih _ _ p hp with h | ⟨it2, hit2, hpit⟩
      · rcases List.mem_append.1 h with h | h
        · exact Or.inl h
        · exact Or.inr ⟨it, List.mem_cons_self _ _, h⟩
      · exact Or.inr ⟨it2, List.mem_cons_of_mem _ hit2, hpit⟩


/-- `_make_pdf_from_images_with_progress` never touches the temp
registry, in any of its paths. -/
theorem make_pdf_temps (cfg : Config) (cancelAt : Nat) (images : List String)
    (d b : String) (st : WState) :
    (make_pdf cfg cancelAt images d b st).2.tempReg = st.tempReg
    ∧ (make_pdf cfg cancelAt images d b st).2.tempLive = st.tempLive := by
  cases hemp : images.isEmpty with
  | true => simp [make_pdf, hemp]
  | false =>
    by_cases h1 : cancelAt ≤ st.tick
    · simp [make_pdf, hemp, readCancel, h1]
    · cases himg : cfg.hasImg2pdf with
      | false =>
        obtain ⟨hpr, hpl, _⟩ := make_pdf_pil_state cfg cancelAt images
          (d ++ "/" ++ b ++ ".pdf") { st with tick := st.tick + 1 }
        refine ⟨?_, ?_⟩ <;>
          simp only [make_pdf, hemp, Bool.false_eq_true, ite_false, readCancel,
            decide_eq_true_eq, h1, himg, ite_true]
        · exact hpr
        · exact hpl
      | true =>
        by_cases h2 : cancelAt ≤ st.tick + 1
        · simp [make_pdf, hemp, readCancel, h1, h2, himg]
        · cases hall : images.all cfg.readable with
          | true =>
            refine ⟨?_, ?_⟩
            · simp [make_pdf, hemp, readCancel, h1, h2, himg, hall]
              split <;> simp [emitLoop_tempReg]
            · simp [make_pdf, hemp, readCancel, h1, h2, himg, hall]
              split <;> simp [emitLoop_tempLive]
          | false =>
            obtain ⟨hpr, hpl, _⟩ := make_pdf_pil_state cfg cancelAt images
              (d ++ "/" ++ b ++ ".pdf")
              { tick := st.tick + 1 + 1, tempReg := st.tempReg,
                tempLive := st.tempLive,
                disk := diskRemove st.disk (d ++ "/" ++ b ++ ".pdf")
                  ++ [⟨d ++ "/" ++ b ++ ".pdf", false, []⟩],
                msgs := st.msgs ++ ["img2pdf failed -> fallback PIL"] }
            refine ⟨?_, ?_⟩ <;>
              simp [make_pdf, hemp, readCancel, h1, h2, himg, hall,
                diskUpsert, diskRemove_append_self]
            · exact hpr
            · exact hpl

/-- Provided the img2pdf-failure fallback is not taken (no img2pdf, or
every page decodes), `_make_pdf_from_images_with_progress` leaves only
finished files on disk. -/
theorem make_pdf_disk (cfg : Config) (cancelAt : Nat) (images : List String)
    (d b : String) (st : WState)
    (hcond : cfg.hasImg2pdf = false ∨ ∀ p ∈ images, cfg.readable p = true) :
    allComplete st.disk →
      allComplete (make_pdf cfg cancelAt images d b st).2.disk := by
  cases hemp : images.isEmpty with
  | true => simp [make_pdf, hemp]
  | false =>
    by_cases h1 : cancelAt ≤ st.tick
    · simp [make_pdf, hemp, readCancel, h1]
    · cases himg : cfg.hasImg2pdf with
      | false =>
        obtain ⟨_, _, hpd⟩ := make_pdf_pil_state cfg cancelAt images
          (d ++ "/" ++ b ++ ".pdf") { st with tick := st.tick + 1 }
        simp only [make_pdf, hemp, Bool.false_eq_true, ite_false, readCancel,
          decide_eq_true_eq, h1, himg, ite_true]
        exact fun h => hpd h
      | true =>
        have hread : ∀ p ∈ images, cfg.readable p = true := by
          rcases hcond with hc | hc
          · rw [hc] at himg; cases himg
          · exact hc
        have hall : images.all cfg.readable = true := List.all_eq_true.2 hread
        by_cases h2 : cancelAt ≤ st.tick + 1
        · simp [make_pdf, hemp, readCancel, h1, h2, himg]
        · intro hall2
          simp [make_pdf, hemp, readCancel, h1, h2, himg, hall,
            diskUpsert, diskRemove_append_self]
          split <;> simp only [emitLoop_disk]
          · rw [diskRemove_append_self]
            exact allComplete_diskRemove _ hall2
          · refine allComplete_append (allComplete_diskRemove _ hall2) ?_
            intro f hf
            rcases List.mem_singleton.1 hf with rfl
            rfl

/-- The per-source loop preserves the temp-registration discipline and,
when no assembly can take the img2pdf-failure fallback, leaves only
finished files on disk. -/
theorem runLoop_inv (cfg : Config) (cancelAt : Nat) :
    ∀ (sources : List Source) (si : Nat) (outs : List String) (st : WState),
      (tempsSub st → tempsSub (runLoop cfg cancelAt sources si outs st).2)
      ∧ ((cfg.fmtCBZ = true ∨ cfg.hasImg2pdf = false
            ∨ allPagesReadable cfg sources) →
          allComplete st.disk →
          allComplete (runLoop cfg cancelAt sources si outs st).2.disk) := by
  intro sources
  induction sources with
  | nil => intro si outs st; exact ⟨fun h => h, fun _ h => h⟩
  | cons src rest ih =>
    intro si outs st
    by_cases h1 : cancelAt ≤ st.tick
    · constructor
      · intro h
        simpa [runLoop, readCancel, h1] using h
      · intro _ h
        simpa [runLoop, readCancel, h1] using h
    · rcases hg : gatherLoop cancelAt src.items [] { st with tick := st.tick + 1, msgs := st.msgs ++ ["processing " ++ src.label] } with ⟨imgs, st2⟩
      have hgd := gatherLoop_disk cancelAt src.items [] { st with tick := st.tick + 1, msgs := st.msgs ++ ["processing " ++ src.label] }
      have hgt := gatherLoop_tempsSub cancelAt src.items [] { st with tick := st.tick + 1, msgs := st.msgs ++ ["processing " ++ src.label] }
      have hgp := gatherLoop_pages cancelAt src.items [] { st with tick := st.tick + 1, msgs := st.msgs ++ ["processing " ++ src.label] }
      rw [hg] at hgd hgt hgp
      have htSub : tempsSub st → tempsSub st2 := by
        intro h
        exact hgt (fun x hx => h x hx)
      cases hemp : imgs.isEmpty with
      | true =>
        obtain ⟨ihT, ihC⟩ := ih (si + 1) outs { st2 with msgs := st2.msgs ++ ["No pages in " ++ src.label] }
        constructor
        · intro h
          simp only [runLoop, readCancel, h1, decide_False, Bool.false_eq_true,
            ite_false, hg, hemp, ite_true]
          exact ihT (fun x hx => htSub h x hx)
        · intro hcond h
          simp only [runLoop, readCancel, h1, decide_False, Bool.false_eq_true,
            ite_false, hg, hemp, ite_true]
          refine ihC ?_ ?_
          · rcases hcond with hc | hc | hc
            · exact Or.inl hc
            · exact Or.inr (Or.inl hc)
            · exact Or.inr (Or.inr (fun s hs => hc s (List.mem_cons_of_mem _ hs)))
          · show allComplete st2.disk
            rw [hgd]
            exact h
      | false =>
        by_cases h2 : cancelAt ≤ st2.tick
        · constructor
          · intro h
            simp only [runLoop, readCancel, h1, decide_False, Bool.false_eq_true,
              ite_false, hg, hemp, h2, decide_True, ite_true]
            exact htSub h
          · intro _ h
            simp only [runLoop, readCancel, h1, decide_False, Bool.false_eq_true,
              ite_false, hg, hemp, h2, decide_True, ite_true]
            show allComplete st2.disk
            rw [hgd]
            exact h
        · have hafterT : ∀ (mk : Option String × WState),
              mk.2.tempReg = st2.tempReg → mk.2.tempLive = st2.tempLive →
              tempsSub st →
              tempsSub (if decide (cancelAt ≤ mk.2.tick) = true
                then (outs ++ mk.1.toList, { mk.2 with tick := mk.2.tick + 1 })
                else runLoop cfg cancelAt rest (si + 1) (outs ++ mk.1.toList)
                  { mk.2 with tick := mk.2.tick + 1 }).2 := by
            intro mk hmr hml h
            have hsub : tempsSub { mk.2 with tick := mk.2.tick + 1 } := by
              intro x hx
              simp only at hx ⊢
              rw [hmr]
              rw [hml] at hx
              exact htSub h x hx
            split
            · exact hsub
            · exact (ih (si + 1) (outs ++ mk.1.toList) _).1 hsub
          have hafterC : ∀ (mk : Option String × WState),
              (allComplete st2.disk → allComplete mk.2.disk) →
              (cfg.fmtCBZ = true ∨ cfg.hasImg2pdf = false
                ∨ allPagesReadable cfg rest) →
              allComplete st.disk →
              allComplete (if decide (cancelAt ≤ mk.2.tick) = true
                then (outs ++ mk.1.toList, { mk.2 with tick := mk.2.tick + 1 })
                else runLoop cfg cancelAt rest (si + 1) (outs ++ mk.1.toList)
                  { mk.2 with tick := mk.2.tick + 1 }).2.disk := by
            intro mk hmd hcondR h
            have hd2 : allComplete mk.2.disk := hmd (by rw [hgd]; exact h)
            split
            · exact hd2
            · exact (ih (si + 1) (outs ++ mk.1.toList) _).2 hcondR hd2
          cases hfmt : cfg.fmtCBZ with
          | true =>
            have hmk := make_cbz_state cfg cancelAt imgs cfg.outDir (if cfg.merge then "merged" else if remove_numbers_from_name src.label = "" then "source" ++ toString si else remove_numbers_from_name src.label) { st2 with tick := st2.tick + 1 }
            constructor
            · intro h
              have := hafterT _ hmk.1 hmk.2.1 h
              simpa [runLoop, readCancel, h1, hg, hemp, h2, hfmt] using this
            · intro _ h
              have := hafterC _ hmk.2.2 (Or.inl hfmt) h
              simpa [runLoop, readCancel, h1, hg, hemp, h2, hfmt] using this
          | false =>
            have hmkT := make_pdf_temps cfg cancelAt imgs cfg.outDir (if cfg.merge then "merged" else if remove_numbers_from_name src.label = "" then "source" ++ toString si else remove_numbers_from_name src.label) { st2 with tick := st2.tick + 1 }
            constructor
            · intro h
              have := hafterT _ hmkT.1 hmkT.2 h
              simpa [runLoop, readCancel, h1, hg, hemp, h2, hfmt] using this
            · intro hcond h
              have hrd : cfg.hasImg2pdf = false
                  ∨ ∀ p ∈ imgs, cfg.readable p = true := by
                rcases hcond with hc | hc | hc
                · cases hc
                · exact Or.inl hc
                · refine Or.inr ?_
                  intro p hp
                  rcases hgp p hp with hx | ⟨it, hit, hpit⟩
                  · cases hx
                  · exact hc src (List.mem_cons_self _ _) it hit p hpit
              have hcondR : cfg.fmtCBZ = true ∨ cfg.hasImg2pdf = false
                  ∨ allPagesReadable cfg rest := by
                rcases hcond with hc | hc | hc
                · cases hc
                · exact Or.inr (Or.inl hc)
                · exact Or.inr (Or.inr (fun s hs => hc s (List.mem_cons_of_mem _ hs)))
              have hmkD := make_pdf_disk cfg cancelAt imgs cfg.outDir (if cfg.merge then "merged" else if remove_numbers_from_name src.label = "" then "source" ++ toString si else remove_numbers_from_name src.label) { st2 with tick := st2.tick + 1 } hrd
              have := hafterC _ hmkD hcondR h
              simpa [runLoop, readCancel, h1, hg, hemp, h2, hfmt] using this

/-- The merge step never touches the temp registry and only ever adds
the finished merged document to disk. -/
theorem mergePhase_state (cfg : Config) (cancelAt : Nat) (outs : List String)
    (st : WState) :
    (mergePhase cfg cancelAt outs st).2.tempReg = st.tempReg
    ∧ (mergePhase cfg cancelAt outs st).2.tempLive = st.tempLive
    ∧ (allComplete st.disk →
        allComplete (mergePhase cfg cancelAt outs st).2.disk) := by
  cases hcnd : cfg.merge && !cfg.fmtCBZ && !outs.isEmpty with
  | false => simp [mergePhase, hcnd]
  | true =>
    by_cases h1 : cancelAt ≤ st.tick
    · simp [mergePhase, hcnd, readCancel, h1]
    · cases hpp : cfg.hasPypdf with
      | false => simp [mergePhase, hcnd, readCancel, h1, hpp]
      | true =>
        rcases hml : mergeAppendLoop cfg cancelAt outs { st with tick := st.tick + 1 } with ⟨raised, st2⟩
        have hmr := mergeAppendLoop_tempReg cfg cancelAt outs { st with tick := st.tick + 1 }
        have hmlv := mergeAppendLoop_tempLive cfg cancelAt outs { st with tick := st.tick + 1 }
        have hmd := mergeAppendLoop_disk cfg cancelAt outs { st with tick := st.tick + 1 }
        rw [hml] at hmr hmlv hmd
        cases raised with
        | true =>
          refine ⟨?_, ?_, ?_⟩ <;>
            simp only [mergePhase, hcnd, readCancel, h1, decide_False,
              Bool.not_false, Bool.true_and, hpp, Bool.and_true, ite_true, hml]
          · exact hmr
          · exact hmlv
          · intro h
            show allComplete st2.disk
            rw [hmd]
            exact h
        | false =>
          by_cases h2 : cancelAt ≤ st2.tick
          · refine ⟨?_, ?_, ?_⟩ <;>
              simp only [mergePhase, hcnd, readCancel, h1, decide_False,
                Bool.not_false, Bool.true_and, hpp, Bool.and_true, ite_true, hml,
                h2, decide_True, Bool.not_true, Bool.false_eq_true, ite_false]
            · exact hmr
            · exact hmlv
            · intro h
              show allComplete st2.disk
              rw [hmd]
              exact h
          · refine ⟨?_, ?_, ?_⟩ <;>
              simp only [mergePhase, hcnd, readCancel, h1, decide_False,
                Bool.not_false, Bool.true_and, hpp, Bool.and_true, ite_true, hml,
                h2, decide_False, Bool.not_false, ite_true]
            · exact hmr
            · exact hmlv
            · intro h
              show allComplete (diskUpsert st2.disk ⟨cfg.outDir ++ "/merged.pdf", true, []⟩)
              refine allComplete_diskUpsert_true _ _ ?_
              rw [hmd]
              exact h

theorem cleanupPhase_state (st : WState) :
    (cleanupPhase st).disk = st.disk
    ∧ (cleanupPhase st).tempReg = []
    ∧ (tempsSub st → (cleanupPhase st).tempLive = [])
    ∧ (cleanupPhase st).tick = st.tick := by
  refine ⟨rfl, rfl, ?_, rfl⟩
  intro h
  show st.tempLive.filter (fun d => !st.tempReg.contains d) = []
  refine List.filter_eq_nil_iff.2 ?_
  intro d hd
  have hm : d ∈ st.tempReg := h d hd
  simp [hm]

theorem emitFinal_state (cancelAt : Nat) (outs : List String) (st : WState) :
    (emitFinal cancelAt outs st).2.tempReg = st.tempReg
    ∧ (emitFinal cancelAt outs st).2.tempLive = st.tempLive
    ∧ (emitFinal cancelAt outs st).2.disk = st.disk
    ∧ (emitFinal cancelAt outs st).2.tick = st.tick + 1
    ∧ (cancelAt < (emitFinal cancelAt outs st).2.tick →
        (emitFinal cancelAt outs st).1 = []) := by
  refine ⟨rfl, rfl, rfl, rfl, ?_⟩
  intro h
  have h2 : cancelAt < st.tick + 1 := h
  have h3 : cancelAt ≤ st.tick := by omega
  simp [emitFinal, readCancel, h3]

/-- C1, counterexample.  The claim says a cancelled job leaves no
partly written output file of an in-progress assembly on disk.  Take a
PDF job with img2pdf importable over one source with pages `p1, p2`,
page `p2` undecodable, and set the cancellation flag while the PIL
fallback is iterating (flag time 5): `open(out_path,"wb")` has already
created the output file, `img2pdf.convert` raised before writing into
it, and the cancelled fallback returns `None` without removing it — the
run is cancelled (the flag was set before the final emit, which is why
the JobResult is `[]`), yet the empty, never-finished
`/out/Src.pdf` remains on disk. -/
theorem C1_counterexample :
    5 < (run cfgPdfBadPage 5 [srcTwoPages]).2.tick
    ∧ (run cfgPdfBadPage 5 [srcTwoPages]).1 = []
    ∧ (run cfgPdfBadPage 5 [srcTwoPages]).2.disk = [⟨"/out/Src.pdf", false, []⟩]
    ∧ ¬ allComplete (run cfgPdfBadPage 5 [srcTwoPages]).2.disk := by
  refine ⟨by decide, by decide, by decide, ?_⟩
  intro h
  have := h ⟨"/out/Src.pdf", false, []⟩ (by decide)
  simp at this

/-- C1, amended.  For every job whose cancellation flag is set before
the final emit: the emitted JobResult is the empty list even if
per-source outputs were already produced, and every temp directory
registered during the run is removed (and the registry cleared) before
the result is emitted.  Moreover no partly written output file remains
on disk provided no assembly can take the img2pdf-failure fallback —
that is, when the format is CBZ, or img2pdf is unavailable, or every
gathered page is decodable; in the remaining case a failed img2pdf
attempt leaves an empty output file that a subsequently cancelled PIL
fallback does not remove (see the counterexample). -/
theorem C1_cancelled_run (cfg : Config) (cancelAt : Nat) (sources : List Source)
    (hc : cancelAt < (run cfg cancelAt sources).2.tick) :
    (run cfg cancelAt sources).1 = []
    ∧ (run cfg cancelAt sources).2.tempLive = []
    ∧ (run cfg cancelAt sources).2.tempReg = []
    ∧ ((cfg.fmtCBZ = true ∨ cfg.hasImg2pdf = false
          ∨ allPagesReadable cfg sources) →
        allComplete (run cfg cancelAt sources).2.disk) := by
  rcases hl : runLoop cfg cancelAt sources 1 [] WState.start with ⟨outs0, stL⟩
  rcases hm : mergePhase cfg cancelAt outs0 stL with ⟨outs1, stM⟩
  have hrun : run cfg cancelAt sources = emitFinal cancelAt outs1 (cleanupPhase stM) := by
    simp [run, hl, hm]
  have hLinv := runLoop_inv cfg cancelAt sources 1 [] WState.start
  rw [hl] at hLinv
  have hMst := mergePhase_state cfg cancelAt outs0 stL
  rw [hm] at hMst
  have hT0 : tempsSub WState.start := by
    intro d hd
    cases hd
  have hTL : tempsSub stL := hLinv.1 hT0
  have hTM : tempsSub stM := by
    intro x hx
    rw [hMst.1]
    rw [hMst.2.1] at hx
    exact hTL x hx
  have hE := emitFinal_state cancelAt outs1 (cleanupPhase stM)
  have hCl := cleanupPhase_state stM
  refine ⟨?_, ?_, ?_, ?_⟩
  · rw [hrun]
    refine hE.2.2.2.2 ?_
    rw [hrun] at hc
    exact hc
  · rw [hrun, hE.2.1]
    exact hCl.2.2.1 hTM
  · rw [hrun, hE.1]
    exact hCl.2.1
  · intro hcond
    rw [hrun]
    show allComplete (emitFinal cancelAt outs1 (cleanupPhase stM)).2.disk
    rw [hE.2.2.1, hCl.1]
    refine hMst.2.2 ?_
    exact hLinv.2 hcond allComplete_nil

/-- C1, witness for the amended theorem: a CBZ job cancelled before it
starts emits the empty result. -/
theorem C1_cancelled_run_witness :
    (run cfgCbzOk 0 [srcOnePage]).1 = [] :=
  (C1_cancelled_run cfgCbzOk 0 [srcOnePage] (by decide)).1
